import Mathlib

/-!
Verification of the `from_tuple` derive crate's core
(`src/strictly_heterogeneous.rs` and the `strictly_heterogeneous` entry
point of `src/lib.rs`).

The Rust source is shallowly embedded:

* `Field` models a `syn::Field` as the pair of its identifier and its
  type.  The type component is the *syntactic* identity of the written
  type (structural equality of the parsed `syn::Type`), which is what
  `HashSet<syn::Type>` compares in the source.
* `verify_unique_field_types` mirrors the scan of
  `strictly_heterogeneous.rs` lines 39-61: a growing seen-set, one
  spanned error pushed per field whose type was already seen, errors
  combined in field order.
* `impl_from_tuple` mirrors lines 11-36: the generated `impl` is
  modelled as a record holding the struct identifier, the ordered tuple
  types, the destructuring variables `d0 .. d(n-1)` (represented by
  their indices) and the field assignments `ident_i : d_i`.
  `runConvImpl` gives the generated conversion its evaluation semantics.
* `permuteLoop` is the fuel-indexed small-step semantics of the
  `while idx < data.len()` loop of `permute` (lines 69-96); `permute`
  runs it with fuel `permuteFuel n`, which is proved to be enough for
  the loop to reach its exit condition (`permuteLoop_fuel_irrelevant`,
  `permute_terminates`).
* `from_strictly_heterogeneous_tuple` mirrors `lib.rs` lines 109-127.
-/

namespace FromTuple

/-- Exact swap of the elements at positions `i` and `j`, the model of
`Vec::swap`/`slice::swap` used by `permute`.  Out-of-range indices leave
the list unchanged (in the verified runs all indices are in range). -/
def swapList (l : List α) (i j : Nat) : List α :=
  match l.get? i, l.get? j with
  | some a, some b => (l.set i b).set j a
  | _, _ => l

/-- A `syn::Field`: its identifier and the syntactic identity of its
written type (the equality used by `HashSet<syn::Type>::insert`). -/
structure Field where
  name : String
  ty : String
  deriving DecidableEq, Repr

/-- The `syn::Data` of a `DeriveInput`: a struct (with its fields in
declaration order), an enum, or a union. -/
inductive DeriveData where
  | structData (fields : List Field)
  | enumData
  | unionData
  deriving DecidableEq, Repr

/-- A parsed `syn::DeriveInput`: the identifier of the item and its
data. -/
structure DeriveInput where
  ident : String
  data : DeriveData
  deriving DecidableEq, Repr

/-- The span attached to a `syn::Error` in this crate: either a single
field (`Error::new_spanned(field, ..)`) or the whole input
(`Error::new_spanned(input, ..)`). -/
inductive ErrSpan where
  | onField (f : Field)
  | onInput (d : DeriveInput)
  deriving DecidableEq, Repr

/-- A `syn::Error` possibly extended by `Error::combine`: the ordered
list of its spanned messages. -/
def SynError : Type := List (ErrSpan × String)

/-- The duplicate-type diagnostic text of `verify_unique_field_types`. -/
def dupTypeMsg : String :=
  "Field types must be unique in a struct deriving `FromTuple`"

/-- The scan of `verify_unique_field_types`: walk the fields keeping the
set of seen types; every field whose type is already in the set
contributes one spanned error, and scanning continues.  `seen` models
the `HashSet` (only membership is ever used). -/
def collectDupErrors (seen : List String) : List Field → List (ErrSpan × String)
  | [] => []
  | f :: rest =>
    if f.ty ∈ seen then
      (ErrSpan.onField f, dupTypeMsg) :: collectDupErrors seen rest
    else
      collectDupErrors (f.ty :: seen) rest

/-- `verify_unique_field_types` (strictly_heterogeneous.rs lines 39-61):
`Ok(())` when no error was recorded, otherwise the combined error. -/
def verify_unique_field_types (fields : List Field) : Except SynError Unit :=
  match collectDupErrors [] fields with
  | [] => Except.ok ()
  | e => Except.error e

/-- The `impl From<(..)> for Struct` generated by `impl_from_tuple`:
struct identifier, the tuple types in field order, the destructuring
variables `d0 .. d(n-1)` (a variable `di` is represented by its index
`i`), and the assignments `ident_i : d_i` of the `Self { .. }` body. -/
structure ConvImpl where
  structIdent : String
  tupleTypes : List String
  destructVars : List Nat
  fieldAssigns : List (String × Nat)
  deriving DecidableEq, Repr

/-- `impl_from_tuple` (strictly_heterogeneous.rs lines 11-36): for the
given field ordering, emit the tuple type in that order and the body
`let (d0, ..) = tuple; Self { ident_0 : d_0, .. }`. -/
def impl_from_tuple (fields : List Field) (data : DeriveInput) : ConvImpl :=
  { structIdent := data.ident
    tupleTypes := fields.map Field.ty
    destructVars := List.range fields.length
    fieldAssigns := (fields.map Field.name).zip (List.range fields.length) }

/-- Evaluation of the generated `from` function on a tuple of values:
`let (d0, ..) = tuple` binds the variables positionally, then each
field of the built record receives the value of its assigned variable.
Returns `none` only if some variable were unbound (never happens for
tuples of the right arity). -/
def runConvImpl (c : ConvImpl) (vals : List V) : Option (List (String × V)) :=
  let env := c.destructVars.zip vals
  c.fieldAssigns.mapM fun a => (env.lookup a.2).map fun v => (a.1, v)

/-- The state reached by the `permute` loop: the orderings passed to
the callback so far (in invocation order), the working copy `data`, the
counter array `stack`, and `idx`. -/
structure PermuteRun (α : Type u) where
  outs : List (List α)
  data : List α
  stack : List Nat
  idx : Nat
  deriving Repr

/-- Fuel-indexed small-step execution of the loop of `permute`
(strictly_heterogeneous.rs lines 78-96).  One fuel unit is one loop
iteration.  With fuel `0` the remaining state is returned unchanged;
`permuteFuel` fuel is proved sufficient to reach the exit condition. -/
def permuteLoop : Nat → List α → List Nat → Nat → PermuteRun α
  | 0, data, stack, idx => ⟨[], data, stack, idx⟩
  | fuel + 1, data, stack, idx =>
    if idx < data.length then
      if stack.getD idx 0 ≥ idx then
        permuteLoop fuel data (stack.set idx 0) (idx + 1)
      else
        let data' := if idx % 2 = 0 then swapList data 0 idx
                     else swapList data (stack.getD idx 0) idx
        let r := permuteLoop fuel data' (stack.set idx (stack.getD idx 0 + 1)) 0
        ⟨data' :: r.outs, r.data, r.stack, r.idx⟩
    else ⟨[], data, stack, idx⟩

/-- Number of loop iterations the `permute` loop takes to drive `idx`
from `0` to `n` starting from an all-zero counter array; used as the
(exact) fuel for `permuteLoop`. -/
def permuteFuel : Nat → Nat
  | 0 => 0
  | m + 1 => (m + 1) * permuteFuel m + m + 1

/-- `permute` (strictly_heterogeneous.rs lines 69-96) as the list of
orderings passed to the callback, in invocation order: the unmodified
input first, then one ordering per swap performed by the loop. -/
def permute (fields : List α) : List (List α) :=
  fields ::
    (permuteLoop (permuteFuel fields.length) fields
      (List.replicate fields.length 0) 0).outs

/-- The output token stream of the derive entry point: either the
expansion of `Error::to_compile_error` or generated conversion impls. -/
inductive TokenOutput where
  | compileError (e : SynError)
  | code (impls : List ConvImpl)

/-- `from_strictly_heterogeneous_tuple` (lib.rs lines 109-127): for a
struct, validate the field types and, on success, emit one
`impl_from_tuple` per ordering produced by `permute`; for any other
data, emit the unsupported-input error. -/
def from_strictly_heterogeneous_tuple (input : DeriveInput) : TokenOutput :=
  match input.data with
  | DeriveData.structData fields =>
    match verify_unique_field_types fields with
    | Except.error e => TokenOutput.compileError e
    | Except.ok () =>
      TokenOutput.code ((permute fields).map fun fs => impl_from_tuple fs input)
  | _ =>
    TokenOutput.compileError
      [(ErrSpan.onInput input,
        "FromStrictlyHeterogeneousTuple currently only supports Struct")]

/-- Block-structured companion of the `permute` loop.  `heapFragAux fm m
j rem data` performs `rem` rounds of (run `fm`, swap at position `m`
with counter value `j`, emit the swapped ordering) followed by one final
run of `fm`; `heapFrag m` is the whole fragment of the loop that drives
`idx` from `0` to `m`:  `heapFrag (m+1)` runs `m` swap rounds at
position `m` around `m + 1` copies of `heapFrag m`.  The bridge lemma
`permuteLoop_eq_heapFrag` proves that `permuteLoop` computes exactly
this. -/
def heapFragAux (fm : List α → List (List α) × List α) (m : Nat) :
    Nat → Nat → List α → List (List α) × List α
  | _, 0, data => fm data
  | j, rem + 1, data =>
    let p := fm data
    let d2 := if m % 2 = 0 then swapList p.2 0 m else swapList p.2 j m
    let q := heapFragAux fm m (j + 1) rem d2
    (p.1 ++ d2 :: q.1, q.2)

/-- The outputs and final working copy of the `permute` loop fragment
that drives `idx` from `0` to `m` (all counters below `m` zero). -/
def heapFrag : Nat → List α → List (List α) × List α
  | 0, data => ([], data)
  | m + 1, data => heapFragAux (heapFrag m) m 0 m data

/-! ### Basic facts about `swapList` -/

@[simp] theorem length_swapList (l : List α) (i j : Nat) :
    (swapList l i j).length = l.length := by
  unfold swapList
  cases h1 : l.get? i <;> cases h2 : l.get? j <;> simp

theorem swapList_oob_left (l : List α) (h : l.length ≤ i) (j : Nat) :
    swapList l i j = l := by
  unfold swapList
  rw [List.get?_eq_getElem?, List.getElem?_eq_none h]

theorem swapList_cons_succ (x : α) (l : List α) (i j : Nat) :
    swapList (x :: l) (i + 1) (j + 1) = x :: swapList l i j := by
  unfold swapList
  rw [List.get?_cons_succ, List.get?_cons_succ]
  cases l.get? i <;> cases l.get? j <;> rfl

theorem swapList_comm (l : List α) (i j : Nat) :
    swapList l i j = swapList l j i := by
  rcases eq_or_ne i j with rfl | hij
  · rfl
  · unfold swapList
    cases h1 : l.get? i <;> cases h2 : l.get? j <;> try rfl
    exact List.set_comm _ _ _ hij

theorem swapList_zero_succ (x : α) (l : List α) (j : Nat) (h : j < l.length) :
    swapList (x :: l) 0 (j + 1) = l[j] :: l.set j x := by
  unfold swapList
  simp [List.get?_eq_getElem?, List.getElem?_eq_getElem h, List.set]

/-- Moving position `j`'s element to the head while writing `a` at `j`
is a permutation of putting `a` at the head. -/
theorem perm_cons_set (l : List α) (j : Nat) (a : α) (h : j < l.length) :
    (l[j] :: l.set j a).Perm (a :: l) := by
  induction l generalizing j a with
  | nil => simp at h
  | cons x t ih =>
    cases j with
    | zero => simpa [List.set] using List.Perm.swap a x t
    | succ j =>
      have hj : j < t.length := by simpa using h
      have p1 : (t[j] :: x :: t.set j a).Perm (x :: t[j] :: t.set j a) :=
        List.Perm.swap x (t[j]) (t.set j a)
      have p2 : (x :: t[j] :: t.set j a).Perm (x :: a :: t) :=
        List.Perm.cons x (ih j a hj)
      have p3 : (x :: a :: t).Perm (a :: x :: t) := List.Perm.swap a x t
      simpa using (p1.trans p2).trans p3

theorem swapList_perm (l : List α) (i j : Nat) : (swapList l i j).Perm l := by
  induction l generalizing i j with
  | nil => cases i <;> cases j <;> simp [swapList]
  | cons x t ih =>
    rcases i with _ | i
    · rcases j with _ | j
      · unfold swapList
        simp [List.set]
      · by_cases hj : j < t.length
        · rw [swapList_zero_succ x t j hj]
          exact perm_cons_set t j x hj
        · rw [swapList_comm, swapList_oob_left _
            (show (x :: t).length ≤ j + 1 by
              simpa using Nat.le_of_not_lt hj)]
    · rcases j with _ | j
      · by_cases hi : i < t.length
        · rw [swapList_comm, swapList_zero_succ x t i hi]
          exact perm_cons_set t i x hi
        · rw [swapList_oob_left _
            (show (x :: t).length ≤ i + 1 by
              simpa using Nat.le_of_not_lt hi)]
      · rw [swapList_cons_succ]
        exact List.Perm.cons x (ih i j)

theorem map_swapList (f : α → β) (l : List α) (i j : Nat) :
    (swapList l i j).map f = swapList (l.map f) i j := by
  unfold swapList
  simp only [List.get?_eq_getElem?, List.getElem?_map]
  cases h1 : l[i]? <;> cases h2 : l[j]? <;> simp [List.map_set]

theorem swapList_getD (l : List α) (i j : Nat) (hi : i < l.length)
    (hj : j < l.length) (k : Nat) (d : α) :
    (swapList l i j).getD k d =
      if k = j then l.getD i d else if k = i then l.getD j d
      else l.getD k d := by
  unfold swapList
  rw [List.get?_eq_getElem?, List.get?_eq_getElem?,
    List.getElem?_eq_getElem hi, List.getElem?_eq_getElem hj]
  simp only [List.getD_eq_getElem?_getD]
  rcases eq_or_ne k j with rfl | hkj
  · rw [if_pos rfl, List.getElem?_set_self (by simpa using hj),
      List.getElem?_eq_getElem hi]
  · rw [List.getElem?_set_ne hkj.symm, if_neg hkj]
    rcases eq_or_ne k i with rfl | hki
    · rw [if_pos rfl, List.getElem?_set_self hi,
        List.getElem?_eq_getElem hj]
    · rw [List.getElem?_set_ne hki.symm, if_neg hki]

/-! ### Lengths through `heapFrag` -/

theorem heapFragAux_length_snd (fm : List α → List (List α) × List α)
    (m : Nat) (hfm : ∀ d : List α, (fm d).2.length = d.length) :
    ∀ j rem (data : List α),
      (heapFragAux fm m j rem data).2.length = data.length := by
  intro j rem
  induction rem generalizing j with
  | zero => intro data; exact hfm data
  | succ rem ih =>
    intro data
    simp only [heapFragAux]
    rw [ih (j + 1)]
    split <;> simp [hfm]

theorem heapFrag_length_snd (m : Nat) :
    ∀ data : List α, (heapFrag m data).2.length = data.length := by
  induction m with
  | zero => intro data; rfl
  | succ m ih =>
    intro data
    exact heapFragAux_length_snd (heapFrag m) m ih 0 m data

/-! ### Step lemmas for `permuteLoop` -/

/-- Prefix further callback orderings in front of a loop state. -/
def prependOuts (os : List (List α)) (r : PermuteRun α) : PermuteRun α :=
  ⟨os ++ r.outs, r.data, r.stack, r.idx⟩

@[simp] theorem prependOuts_nil (r : PermuteRun α) :
    prependOuts [] r = r := rfl

theorem prependOuts_prependOuts (a b : List (List α)) (r : PermuteRun α) :
    prependOuts a (prependOuts b r) = prependOuts (a ++ b) r := by
  simp [prependOuts]

theorem permuteLoop_exit (data : List α) (stack : List Nat) (idx : Nat)
    (h : ¬ idx < data.length) (fuel : Nat) :
    permuteLoop fuel data stack idx = ⟨[], data, stack, idx⟩ := by
  cases fuel <;> simp [permuteLoop, h]

theorem permuteLoop_advance (data : List α) (stack : List Nat) (idx : Nat)
    (h1 : idx < data.length) (h2 : idx ≤ stack.getD idx 0) (fuel : Nat) :
    permuteLoop (fuel + 1) data stack idx =
      permuteLoop fuel data (stack.set idx 0) (idx + 1) := by
  simp only [permuteLoop]
  rw [if_pos h1, if_pos h2]

theorem permuteLoop_swapStep (data : List α) (stack : List Nat) (idx : Nat)
    (h1 : idx < data.length) (h2 : stack.getD idx 0 < idx) (fuel : Nat) :
    permuteLoop (fuel + 1) data stack idx =
      prependOuts
        [if idx % 2 = 0 then swapList data 0 idx
         else swapList data (stack.getD idx 0) idx]
        (permuteLoop fuel
          (if idx % 2 = 0 then swapList data 0 idx
           else swapList data (stack.getD idx 0) idx)
          (stack.set idx (stack.getD idx 0 + 1)) 0) := by
  simp only [permuteLoop]
  rw [if_pos h1, if_neg (Nat.not_le.2 h2)]
  rfl

/-! ### The bridge: `permuteLoop` computes `heapFrag` -/

theorem permuteLoop_eq_heapFrag (m : Nat) :
    ∀ (k : Nat) (data : List α) (stack : List Nat),
      m ≤ data.length → stack.length = data.length →
      (∀ i, i < m → stack.getD i 0 = 0) →
      permuteLoop (permuteFuel m + k) data stack 0 =
        prependOuts (heapFrag m data).1
          (permuteLoop k (heapFrag m data).2 stack m) := by
  induction m with
  | zero =>
    intro k data stack _ _ _
    simp [permuteFuel, heapFrag, prependOuts]
  | succ m ih =>
    -- the fragment for `m + 1`: blocks of fragment-`m` runs separated by
    -- swap steps at position `m`, with the counter at `m` running from
    -- `j` up to `m`
    have inner : ∀ rem j (k : Nat) (data : List α) (stack : List Nat),
        j + rem = m → m < data.length → stack.length = data.length →
        (∀ i, i < m → stack.getD i 0 = 0) → stack.getD m 0 = j →
        permuteLoop ((rem + 1) * permuteFuel m + rem + 1 + k) data stack 0 =
          prependOuts (heapFragAux (heapFrag m) m j rem data).1
            (permuteLoop k (heapFragAux (heapFrag m) m j rem data).2
              (stack.set m 0) (m + 1)) := by
      intro rem
      induction rem with
      | zero =>
        intro j k data stack hjr hm hsl hz hj
        have h1 : (0 + 1) * permuteFuel m + 0 + 1 + k
            = permuteFuel m + (k + 1) := by ring
        rw [h1, ih (k + 1) data stack (Nat.le_of_lt hm) hsl hz]
        have hm2 : m < (heapFrag m data).2.length := by
          rw [heapFrag_length_snd]; exact hm
        rw [permuteLoop_advance _ _ _ hm2 (by omega) k]
        rfl
      | succ rem ihr =>
        intro j k data stack hjr hm hsl hz hj
        have hjm : j < m := by omega
        have h1 : (rem + 1 + 1) * permuteFuel m + (rem + 1) + 1 + k
            = permuteFuel m +
              (((rem + 1) * permuteFuel m + rem + 1 + k) + 1) := by ring
        rw [h1, ih _ data stack (Nat.le_of_lt hm) hsl hz]
        have hm2 : m < (heapFrag m data).2.length := by
          rw [heapFrag_length_snd]; exact hm
        rw [permuteLoop_swapStep _ _ _ hm2 (by omega)]
        rw [hj]
        have hd2len :
            (if m % 2 = 0 then swapList (heapFrag m data).2 0 m
             else swapList (heapFrag m data).2 j m).length
              = data.length := by
          split <;> simp [heapFrag_length_snd]
        rw [ihr (j + 1) k _ (stack.set m (j + 1)) (by omega)
          (by omega) (by rw [List.length_set, hd2len]; exact hsl)
          (by
            intro i hi
            rw [List.getD_eq_getElem?_getD,
              List.getElem?_set_ne (by omega : m ≠ i),
              ← List.getD_eq_getElem?_getD]
            exact hz i hi)
          (by
            rw [List.getD_eq_getElem?_getD,
              List.getElem?_set_self (by omega : m < stack.length)]
            rfl)]
        rw [prependOuts_prependOuts, prependOuts_prependOuts,
          List.set_set]
        show _ = prependOuts (heapFragAux (heapFrag m) m j (rem + 1) data).1 _
        simp only [heapFragAux]
        simp

    intro k data stack hmlen hsl hz
    have hfuel : permuteFuel (m + 1) + k
        = (m + 1) * permuteFuel m + m + 1 + k := by
      simp [permuteFuel]
    rw [hfuel, inner m 0 k data stack (by omega) (by omega) hsl
      (fun i hi => hz i (by omega)) (hz m (by omega))]
    have hset : stack.set m 0 = stack := by
      apply List.ext_getElem?
      intro i
      rcases eq_or_ne i m with rfl | hne
      · by_cases hi : i < stack.length
        · rw [List.getElem?_set_self hi, List.getElem?_eq_getElem hi]
          have := hz i (by omega)
          rw [List.getD_eq_getElem?_getD, List.getElem?_eq_getElem hi]
            at this
          simp_all
        · rw [List.set_eq_of_length_le (by omega)]
      · rw [List.getElem?_set_ne hne.symm]
    rw [hset]
    rfl

/-! ### The full run of the `permute` loop -/

theorem permuteLoop_run (data : List α) (k : Nat) :
    permuteLoop (permuteFuel data.length + k) data
        (List.replicate data.length 0) 0 =
      ⟨(heapFrag data.length data).1, (heapFrag data.length data).2,
        List.replicate data.length 0, data.length⟩ := by
  rw [permuteLoop_eq_heapFrag data.length k data _ le_rfl (by simp)
    (by
      intro i hi
      rw [List.getD_eq_getElem?_getD, List.getElem?_replicate]
      split <;> rfl)]
  rw [permuteLoop_exit _ _ _ (by rw [heapFrag_length_snd]; omega) k]
  simp [prependOuts]

theorem permute_eq_heapFrag (data : List α) :
    permute data = data :: (heapFrag data.length data).1 := by
  rw [permute, ← Nat.add_zero (permuteFuel data.length),
    permuteLoop_run data 0]

/-! ### Counting the callback invocations -/

theorem heapFragAux_length_fst (fm : List α → List (List α) × List α)
    (m : Nat) (c : Nat) (hfm : ∀ d : List α, (fm d).1.length + 1 = c) :
    ∀ j rem (data : List α),
      (heapFragAux fm m j rem data).1.length + 1 = (rem + 1) * c := by
  intro j rem
  induction rem generalizing j with
  | zero => intro data; simpa using hfm data
  | succ rem ih =>
    intro data
    simp only [heapFragAux, List.length_append, List.length_cons]
    have h1 := hfm data
    have h2 := ih (j + 1)
      (if m % 2 = 0 then swapList (fm data).2 0 m
       else swapList (fm data).2 j m)
    -- (p + 1) + (q + 1) = c + (rem + 1) * c = (rem + 2) * c
    have h3 : (rem + 1 + 1) * c = (rem + 1) * c + c := by ring
    omega

theorem heapFrag_length_fst (m : Nat) :
    ∀ data : List α, (heapFrag m data).1.length + 1 = Nat.factorial m := by
  induction m with
  | zero => intro data; rfl
  | succ m ih =>
    intro data
    rw [Nat.factorial_succ]
    show (heapFragAux (heapFrag m) m 0 m data).1.length + 1
      = (m + 1) * Nat.factorial m
    exact heapFragAux_length_fst (heapFrag m) m (Nat.factorial m) ih 0 m data

/-- The loop, run on any input with the fuel used by
`permute` (or any more), halts with `idx = data.length` having emitted
`data.length ! - 1` orderings (the initial pre-loop ordering is the
remaining one). -/
theorem permuteLoop_halts (data : List α) (k : Nat) :
    (permuteLoop (permuteFuel data.length + k) data
        (List.replicate data.length 0) 0).idx = data.length ∧
    (permuteLoop (permuteFuel data.length + k) data
        (List.replicate data.length 0) 0).outs.length + 1
      = Nat.factorial data.length := by
  rw [permuteLoop_run data k]
  exact ⟨rfl, heapFrag_length_fst data.length data⟩

/-! ### Frame: every visited ordering only rearranges the first `m`
positions -/

/-- `FragRel m data l`: the ordering `l` has the same length as `data`,
rearranges its first `m` elements, and agrees with it from position `m`
on. -/
def FragRel (m : Nat) (data l : List α) : Prop :=
  l.length = data.length ∧ (l.take m).Perm (data.take m) ∧
    l.drop m = data.drop m

theorem FragRel.refl (m : Nat) (data : List α) : FragRel m data data :=
  ⟨Eq.refl _, List.Perm.refl _, Eq.refl _⟩

theorem FragRel.trans (m : Nat) (a b c : List α) (h1 : FragRel m a b)
    (h2 : FragRel m b c) : FragRel m a c :=
  ⟨h2.1.trans h1.1, h2.2.1.trans h1.2.1, h2.2.2.trans h1.2.2⟩

theorem FragRel.mono_succ (m : Nat) (data l : List α)
    (h : FragRel m data l) : FragRel (m + 1) data l := by
  obtain ⟨hlen, hperm, hdrop⟩ := h
  refine ⟨hlen, ?_, ?_⟩
  · have hm : l[m]? = data[m]? := by
      have h1 := List.getElem?_drop l m 0
      have h2 := List.getElem?_drop data m 0
      rw [Nat.add_zero] at h1 h2
      rw [← h1, ← h2, hdrop]
    rw [List.take_succ, List.take_succ, hm]
    exact hperm.append (List.Perm.refl _)
  · have h1 : l.drop (m + 1) = (l.drop m).drop 1 := by
      rw [List.drop_drop, Nat.add_comm]
    rw [h1, hdrop, List.drop_drop, Nat.add_comm]

theorem swapList_append (t r : List α) (i j : Nat) (hi : i < t.length)
    (hj : j < t.length) : swapList (t ++ r) i j = swapList t i j ++ r := by
  unfold swapList
  rw [List.get?_eq_getElem?, List.get?_eq_getElem?,
    List.getElem?_append_left hi, List.getElem?_append_left hj,
    List.get?_eq_getElem?, List.get?_eq_getElem?]
  cases h1 : t[i]? <;> cases h2 : t[j]? <;> try rfl
  rename_i va vb
  show ((t ++ r).set i vb).set j va = (t.set i vb).set j va ++ r
  rw [List.set_append_left _ _ hi,
    List.set_append_left _ _ (by simpa using hj)]

theorem swapList_confined (l : List α) (i j m : Nat) (hi : i < m)
    (hj : j < m) (hm : m ≤ l.length) : FragRel m l (swapList l i j) := by
  have hlt : i < (l.take m).length := by
    rw [List.length_take]; omega
  have hlt2 : j < (l.take m).length := by
    rw [List.length_take]; omega
  have hdecomp : swapList l i j
      = swapList (l.take m) i j ++ l.drop m := by
    conv_lhs => rw [← List.take_append_drop m l]
    exact swapList_append _ _ i j hlt hlt2
  have hxlen : (swapList (l.take m) i j).length = m := by
    rw [length_swapList, List.length_take]; omega
  refine ⟨by simp, ?_, ?_⟩
  · rw [hdecomp, List.take_left' hxlen]
    exact swapList_perm _ i j
  · rw [hdecomp, List.drop_left' hxlen]

theorem heapFrag_fragRel (m : Nat) :
    ∀ data : List α, m ≤ data.length →
      (∀ l ∈ (heapFrag m data).1, FragRel m data l) ∧
        FragRel m data (heapFrag m data).2 := by
  induction m with
  | zero =>
    intro data _
    exact ⟨by intro l hl; simp [heapFrag] at hl, FragRel.refl 0 data⟩
  | succ m ih =>
    have inner : ∀ rem j (b : List α), j + rem = m → m < b.length →
        (∀ l ∈ (heapFragAux (heapFrag m) m j rem b).1,
          FragRel (m + 1) b l) ∧
        FragRel (m + 1) b (heapFragAux (heapFrag m) m j rem b).2 := by
      intro rem
      induction rem with
      | zero =>
        intro j b hjm hb
        obtain ⟨houts, hfin⟩ := ih b (Nat.le_of_lt hb)
        exact ⟨fun l hl => FragRel.mono_succ m b l (houts l hl),
          FragRel.mono_succ m b _ hfin⟩
      | succ rem ihr =>
        intro j b hjm hb
        obtain ⟨houts, hfin⟩ := ih b (Nat.le_of_lt hb)
        have hfin1 : FragRel (m + 1) b (heapFrag m b).2 :=
          FragRel.mono_succ m b _ hfin
        have hp2len : (heapFrag m b).2.length = b.length :=
          heapFrag_length_snd m b
        have hd2 : FragRel (m + 1) b
            (if m % 2 = 0 then swapList (heapFrag m b).2 0 m
             else swapList (heapFrag m b).2 j m) := by
          refine FragRel.trans _ _ _ _ hfin1 ?_
          split
          · exact swapList_confined _ 0 m (m + 1) (by omega) (by omega)
              (by omega)
          · exact swapList_confined _ j m (m + 1) (by omega) (by omega)
              (by omega)
        have hd2len :
            (if m % 2 = 0 then swapList (heapFrag m b).2 0 m
             else swapList (heapFrag m b).2 j m).length = b.length := by
          split <;> simp [hp2len]
        obtain ⟨qouts, qfin⟩ := ihr (j + 1) _ (by omega) (by rw [hd2len]; exact hb)
        constructor
        · intro l hl
          simp only [heapFragAux, List.mem_append, List.mem_cons] at hl
          rcases hl with hl | hl | hl
          · exact FragRel.mono_succ m b l (houts l hl)
          · rw [hl]; exact hd2
          · exact FragRel.trans _ _ _ _ hd2 (qouts l hl)
        · exact FragRel.trans _ _ _ _ hd2 qfin
    intro data hlen
    obtain ⟨houts, hfin⟩ := inner m 0 data (by omega) (by omega)
    exact ⟨by
      intro l hl
      exact houts l (by simpa [heapFrag] using hl), by
      simpa [heapFrag] using hfin⟩

/-- Every ordering `permute` passes to the callback is a permutation of
the input (same fields, only positions changed). -/
theorem permute_mem_perm (data : List α) :
    ∀ l ∈ permute data, l.Perm data := by
  intro l hl
  rw [permute_eq_heapFrag] at hl
  rcases List.mem_cons.1 hl with rfl | hl
  · exact List.Perm.refl l
  · obtain ⟨houts, _⟩ := heapFrag_fragRel data.length data le_rfl
    obtain ⟨hlen, hperm, _⟩ := houts l hl
    rw [List.take_length] at hperm
    rw [← List.take_length (l := l)]
    rw [hlen]
    exact hperm


/-! ### Source maps: tracking where each position's element comes from

A state reached from `data` by position swaps satisfies
`l.getD q d = data.getD (src q) d` for a *source map* `src : Nat → Nat`.
The source map of one swap is `swapFun`; the source map of a whole
`heapFrag m` run is `netFun m`; the source maps of the block-start
states inside level `m + 1` are `bmap m j` for odd `m` and the iterates
of `evenStep m` for even `m`.  All of them are piecewise-linear, and the
facts about their compositions are settled by `omega` after replacing
each application by its flat case characterization (`..._spec`). -/

/-- Source map of `swapList l i j`. -/
def swapFun (i j q : Nat) : Nat :=
  if q = i then j else if q = j then i else q

theorem getD_swapList_src (l : List α) (i j : Nat) (hi : i < l.length)
    (hj : j < l.length) (q : Nat) (d : α) :
    (swapList l i j).getD q d = l.getD (swapFun i j q) d := by
  rw [swapList_getD l i j hi hj q d]
  unfold swapFun
  rcases eq_or_ne q i with rfl | hqi
  · rcases eq_or_ne q j with rfl | hqj
    · simp
    · simp [hqj]
  · rcases eq_or_ne q j with rfl | hqj
    · simp [hqi]
    · simp [hqi, hqj]

/-- Net source map of `heapFrag m` for `m ≤ 2` and odd `m`: the swap of
positions `0` and `m - 1` (the identity for `m ≤ 1`). -/
def netOdd (m q : Nat) : Nat :=
  if q = 0 then m - 1 else if q = m - 1 then 0 else q

/-- Net source map of `heapFrag m` for even `m ≥ 4`: the compound
permutation Heap's algorithm leaves behind. -/
def netEven (m q : Nat) : Nat :=
  if q = 0 then m - 3
  else if q = 1 then m - 2
  else if q ≤ m - 3 then q - 1
  else if q = m - 2 then m - 1
  else if q = m - 1 then 0
  else q

/-- Net source map of a whole `heapFrag m` run. -/
def netFun (m q : Nat) : Nat :=
  if m ≤ 2 ∨ m % 2 = 1 then netOdd m q else netEven m q

/-- Source map of the `j`-th block-start state of level `m + 1` (odd
`m`), `j = 1`: the state after the very first swap round. -/
def bmapOne (m q : Nat) : Nat :=
  if q = 0 then m
  else if q < m - 1 then q
  else if q = m - 1 then 0
  else if q = m then m - 1
  else q

/-- Source map of the last block-start state of level `m + 1` (odd
`m`), `j = m`. -/
def bmapLast (m q : Nat) : Nat :=
  if q = 0 then m
  else if q = 1 then m - 1
  else if q ≤ m - 1 then q - 1
  else if q = m then 0
  else q

/-- Source map of the middle block-start states of level `m + 1` (odd
`m`), `2 ≤ j ≤ m - 1`. -/
def bmapMid (m j q : Nat) : Nat :=
  if q = 0 then (if (j - 1) % 2 = 0 then m else 0)
  else if q = 1 then m - 1
  else if q ≤ m - 2 then (if q ≤ j - 1 then q - 1 else q)
  else if q = m - 1 then (if (j - 1) % 2 = 0 then 0 else m)
  else if q = m then j - 1
  else q

/-- Source map of the `j`-th block-start state of level `m + 1` for odd
`m` (the state reached after `j` swap rounds at position `m`). -/
def bmap (m j q : Nat) : Nat :=
  if j = 0 then q
  else if j = 1 then bmapOne m q
  else if j = m then bmapLast m q
  else bmapMid m j q

theorem swapFun_spec (i j q : Nat) :
    (q = i ∧ swapFun i j q = j) ∨ (q ≠ i ∧ q = j ∧ swapFun i j q = i) ∨
    (q ≠ i ∧ q ≠ j ∧ swapFun i j q = q) := by
  unfold swapFun; split_ifs <;> omega

theorem netOdd_spec (m q : Nat) :
    (q = 0 ∧ netOdd m q = m - 1) ∨ (q ≠ 0 ∧ q = m - 1 ∧ netOdd m q = 0) ∨
    (q ≠ 0 ∧ q ≠ m - 1 ∧ netOdd m q = q) := by
  unfold netOdd; split_ifs <;> omega

theorem netEven_spec (m q : Nat) :
    (q = 0 ∧ netEven m q = m - 3) ∨
    (q ≠ 0 ∧ q = 1 ∧ netEven m q = m - 2) ∨
    (q ≠ 0 ∧ q ≠ 1 ∧ q ≤ m - 3 ∧ netEven m q = q - 1) ∨
    (q ≠ 0 ∧ q ≠ 1 ∧ ¬ q ≤ m - 3 ∧ q = m - 2 ∧ netEven m q = m - 1) ∨
    (q ≠ 0 ∧ q ≠ 1 ∧ ¬ q ≤ m - 3 ∧ q ≠ m - 2 ∧ q = m - 1 ∧
      netEven m q = 0) ∨
    (q ≠ 0 ∧ q ≠ 1 ∧ ¬ q ≤ m - 3 ∧ q ≠ m - 2 ∧ q ≠ m - 1 ∧
      netEven m q = q) := by
  by_cases h0 : q = 0
  · exact Or.inl ⟨h0, by unfold netEven; rw [if_pos h0]⟩
  by_cases h1 : q = 1
  · exact Or.inr (Or.inl ⟨h0, h1, by unfold netEven; rw [if_neg h0, if_pos h1]⟩)
  by_cases h3 : q ≤ m - 3
  · exact Or.inr (Or.inr (Or.inl ⟨h0, h1, h3, by
      unfold netEven; rw [if_neg h0, if_neg h1, if_pos h3]⟩))
  by_cases h4 : q = m - 2
  · exact Or.inr (Or.inr (Or.inr (Or.inl ⟨h0, h1, h3, h4, by
      unfold netEven; rw [if_neg h0, if_neg h1, if_neg h3, if_pos h4]⟩)))
  by_cases h5 : q = m - 1
  · exact Or.inr (Or.inr (Or.inr (Or.inr (Or.inl ⟨h0, h1, h3, h4, h5, by
      unfold netEven
      rw [if_neg h0, if_neg h1, if_neg h3, if_neg h4, if_pos h5]⟩))))
  · exact Or.inr (Or.inr (Or.inr (Or.inr (Or.inr ⟨h0, h1, h3, h4, h5, by
      unfold netEven
      rw [if_neg h0, if_neg h1, if_neg h3, if_neg h4, if_neg h5]⟩))))

theorem bmapOne_spec (m q : Nat) :
    (q = 0 ∧ bmapOne m q = m) ∨
    (q ≠ 0 ∧ q < m - 1 ∧ bmapOne m q = q) ∨
    (q ≠ 0 ∧ ¬ q < m - 1 ∧ q = m - 1 ∧ bmapOne m q = 0) ∨
    (q ≠ 0 ∧ ¬ q < m - 1 ∧ q ≠ m - 1 ∧ q = m ∧ bmapOne m q = m - 1) ∨
    (q ≠ 0 ∧ ¬ q < m - 1 ∧ q ≠ m - 1 ∧ q ≠ m ∧ bmapOne m q = q) := by
  unfold bmapOne; split_ifs <;> omega

theorem bmapLast_spec (m q : Nat) :
    (q = 0 ∧ bmapLast m q = m) ∨
    (q ≠ 0 ∧ q = 1 ∧ bmapLast m q = m - 1) ∨
    (q ≠ 0 ∧ q ≠ 1 ∧ q ≤ m - 1 ∧ bmapLast m q = q - 1) ∨
    (q ≠ 0 ∧ q ≠ 1 ∧ ¬ q ≤ m - 1 ∧ q = m ∧ bmapLast m q = 0) ∨
    (q ≠ 0 ∧ q ≠ 1 ∧ ¬ q ≤ m - 1 ∧ q ≠ m ∧ bmapLast m q = q) := by
  unfold bmapLast; split_ifs <;> omega

theorem bmapMid_spec (m j q : Nat) :
    (q = 0 ∧ (j - 1) % 2 = 0 ∧ bmapMid m j q = m) ∨
    (q = 0 ∧ (j - 1) % 2 ≠ 0 ∧ bmapMid m j q = 0) ∨
    (q ≠ 0 ∧ q = 1 ∧ bmapMid m j q = m - 1) ∨
    (q ≠ 0 ∧ q ≠ 1 ∧ q ≤ m - 2 ∧ q ≤ j - 1 ∧ bmapMid m j q = q - 1) ∨
    (q ≠ 0 ∧ q ≠ 1 ∧ q ≤ m - 2 ∧ ¬ q ≤ j - 1 ∧ bmapMid m j q = q) ∨
    (q ≠ 0 ∧ q ≠ 1 ∧ ¬ q ≤ m - 2 ∧ q = m - 1 ∧ (j - 1) % 2 = 0 ∧
      bmapMid m j q = 0) ∨
    (q ≠ 0 ∧ q ≠ 1 ∧ ¬ q ≤ m - 2 ∧ q = m - 1 ∧ (j - 1) % 2 ≠ 0 ∧
      bmapMid m j q = m) ∨
    (q ≠ 0 ∧ q ≠ 1 ∧ ¬ q ≤ m - 2 ∧ q ≠ m - 1 ∧ q = m ∧
      bmapMid m j q = j - 1) ∨
    (q ≠ 0 ∧ q ≠ 1 ∧ ¬ q ≤ m - 2 ∧ q ≠ m - 1 ∧ q ≠ m ∧
      bmapMid m j q = q) := by
  by_cases h0 : q = 0
  · by_cases hp : (j - 1) % 2 = 0
    · exact Or.inl ⟨h0, hp, by unfold bmapMid; rw [if_pos h0, if_pos hp]⟩
    · exact Or.inr (Or.inl ⟨h0, hp, by
        unfold bmapMid; rw [if_pos h0, if_neg hp]⟩)
  by_cases h1 : q = 1
  · exact Or.inr (Or.inr (Or.inl ⟨h0, h1, by
      unfold bmapMid; rw [if_neg h0, if_pos h1]⟩))
  by_cases h2 : q ≤ m - 2
  · by_cases hp : q ≤ j - 1
    · exact Or.inr (Or.inr (Or.inr (Or.inl ⟨h0, h1, h2, hp, by
        unfold bmapMid; rw [if_neg h0, if_neg h1, if_pos h2, if_pos hp]⟩)))
    · exact Or.inr (Or.inr (Or.inr (Or.inr (Or.inl ⟨h0, h1, h2, hp, by
        unfold bmapMid; rw [if_neg h0, if_neg h1, if_pos h2, if_neg hp]⟩))))
  by_cases h3 : q = m - 1
  · by_cases hp : (j - 1) % 2 = 0
    · refine Or.inr (Or.inr (Or.inr (Or.inr (Or.inr (Or.inl
        ⟨h0, h1, h2, h3, hp, ?_⟩)))))
      unfold bmapMid; rw [if_neg h0, if_neg h1, if_neg h2, if_pos h3, if_pos hp]
    · refine Or.inr (Or.inr (Or.inr (Or.inr (Or.inr (Or.inr (Or.inl
        ⟨h0, h1, h2, h3, hp, ?_⟩))))))
      unfold bmapMid; rw [if_neg h0, if_neg h1, if_neg h2, if_pos h3, if_neg hp]
  by_cases h4 : q = m
  · refine Or.inr (Or.inr (Or.inr (Or.inr (Or.inr (Or.inr (Or.inr (Or.inl
      ⟨h0, h1, h2, h3, h4, ?_⟩)))))))
    unfold bmapMid; rw [if_neg h0, if_neg h1, if_neg h2, if_neg h3, if_pos h4]
  · refine Or.inr (Or.inr (Or.inr (Or.inr (Or.inr (Or.inr (Or.inr (Or.inr
      ⟨h0, h1, h2, h3, h4, ?_⟩)))))))
    unfold bmapMid; rw [if_neg h0, if_neg h1, if_neg h2, if_neg h3, if_neg h4]

theorem netFun_odd (m q : Nat) (hm : m ≤ 2 ∨ m % 2 = 1) :
    netFun m q = netOdd m q := by
  unfold netFun; rw [if_pos hm]

theorem netFun_even (m q : Nat) (hm : ¬(m ≤ 2 ∨ m % 2 = 1)) :
    netFun m q = netEven m q := by
  unfold netFun; rw [if_neg hm]

theorem netFun_le (m q : Nat) (h : q ≤ m) : netFun m q ≤ m := by
  unfold netFun netOdd netEven; split_ifs <;> omega

theorem netFun_gt (m q : Nat) (h : m < q) : netFun m q = q := by
  unfold netFun netOdd netEven; split_ifs <;> omega

theorem swapFun_le (i j q m : Nat) (hi : i ≤ m) (hj : j ≤ m) (h : q ≤ m) :
    swapFun i j q ≤ m := by
  unfold swapFun; split_ifs <;> omega

theorem swapFun_gt (i j q m : Nat) (hi : i ≤ m) (hj : j ≤ m) (h : m < q) :
    swapFun i j q = q := by
  unfold swapFun; split_ifs <;> omega

theorem bmap_eval_zero (m q : Nat) : bmap m 0 q = q := by
  unfold bmap; simp

theorem bmap_eval_one (m q : Nat) : bmap m 1 q = bmapOne m q := by
  unfold bmap; simp

theorem bmap_eval_last (m q : Nat) (hm : 2 ≤ m) :
    bmap m m q = bmapLast m q := by
  unfold bmap; rw [if_neg (by omega), if_neg (by omega), if_pos rfl]

theorem bmap_eval_mid (m j q : Nat) (h2 : 2 ≤ j) (hm : j ≠ m) :
    bmap m j q = bmapMid m j q := by
  unfold bmap; rw [if_neg (by omega), if_neg (by omega), if_neg hm]

/-- Transition of the block-start source maps for odd `m`: one more
round, i.e. a full `heapFrag m` block (source map `netFun m`) followed
by the swap of positions `stack[m] = j` and `m`. -/
theorem bmap_step (m j : Nat) (hm : m % 2 = 1) (hj : j < m) (q : Nat) :
    bmap m (j + 1) q = bmap m j (netFun m (swapFun j m q)) := by
  rw [netFun_odd m _ (Or.inr hm)]
  have hs := swapFun_spec j m q
  have hn := netOdd_spec m (swapFun j m q)
  rcases Nat.lt_or_ge j 1 with hj0 | hj1
  · have hj' : j = 0 := by omega
    subst hj'
    rw [bmap_eval_zero, bmap_eval_one]
    have hb := bmapOne_spec m q
    generalize hA : swapFun 0 m q = a at hs hn
    generalize hB : netOdd m a = b at hn
    generalize hC : bmapOne m q = c at hb
    omega
  rcases Nat.lt_or_ge j 2 with hj1' | hj2
  · have hj' : j = 1 := by omega
    subst hj'
    rw [bmap_eval_one, bmap_eval_mid m 2 q (by omega) (by omega)]
    have hb1 := bmapOne_spec m (netOdd m (swapFun 1 m q))
    have hb2 := bmapMid_spec m 2 q
    generalize hA : swapFun 1 m q = a at hs hn hb1
    generalize hB : netOdd m a = b at hn hb1
    generalize hC : bmapOne m b = c at hb1
    generalize hD : bmapMid m 2 q = e at hb2
    omega
  rcases Nat.lt_or_ge j (m - 1) with hjm | hjm
  · rw [bmap_eval_mid m j _ hj2 (by omega),
      bmap_eval_mid m (j + 1) q (by omega) (by omega)]
    have hb1 := bmapMid_spec m j (netOdd m (swapFun j m q))
    have hb2 := bmapMid_spec m (j + 1) q
    generalize hA : swapFun j m q = a at hs hn hb1
    generalize hB : netOdd m a = b at hn hb1
    generalize hC : bmapMid m j b = c at hb1
    generalize hD : bmapMid m (j + 1) q = e at hb2
    omega
  · have hj' : j = m - 1 := by omega
    have hm3 : 3 ≤ m := by omega
    rw [bmap_eval_mid m j _ hj2 (by omega),
      show j + 1 = m by omega, bmap_eval_last m q (by omega)]
    have hb1 := bmapMid_spec m j (netOdd m (swapFun j m q))
    have hb2 := bmapLast_spec m q
    generalize hA : swapFun j m q = a at hs hn hb1
    generalize hB : netOdd m a = b at hn hb1
    generalize hC : bmapMid m j b = c at hb1
    generalize hD : bmapLast m q = e at hb2
    omega

/-- The value at position `m` of the `j`-th block-start state (odd
`m`): `m`, then `m - 1`, then `1, 2, .., m - 2`, then `0`. -/
theorem bmap_last_val (m j : Nat) (hm : m % 2 = 1) (hj : j ≤ m) :
    bmap m j m = (if j = 0 then m else if j = 1 then m - 1
      else if j = m then 0 else j - 1) := by
  rcases Nat.lt_or_ge j 1 with h0 | h1
  · have : j = 0 := by omega
    subst this
    rw [bmap_eval_zero, if_pos rfl]
  rcases Nat.lt_or_ge j 2 with h1' | h2
  · have : j = 1 := by omega
    subst this
    rw [bmap_eval_one]
    norm_num
    have hb := bmapOne_spec m m
    generalize hC : bmapOne m m = c at hb
    omega
  rcases eq_or_ne j m with heq | hne
  · rw [heq, bmap_eval_last m m (by omega)]
    have hb := bmapLast_spec m m
    generalize hC : bmapLast m m = c at hb
    split_ifs <;> omega
  · rw [bmap_eval_mid m j m h2 hne]
    have hb := bmapMid_spec m j m
    generalize hC : bmapMid m j m = c at hb
    split_ifs <;> omega

theorem bmap_last_le (m j : Nat) (hm : m % 2 = 1) (hj : j ≤ m) :
    bmap m j m ≤ m := by
  rw [bmap_last_val m j hm hj]
  split_ifs <;> omega

theorem bmap_last_inj (m j1 j2 : Nat) (hm : m % 2 = 1) (h1 : j1 < j2)
    (h2 : j2 ≤ m) : bmap m j1 m ≠ bmap m j2 m := by
  rw [bmap_last_val m j1 hm (by omega), bmap_last_val m j2 hm h2]
  split_ifs <;> omega

/-- After the last block of level `m + 1` (odd `m`), the composed
source map is exactly `netFun (m + 1)`. -/
theorem bmap_fin (m : Nat) (hm : m % 2 = 1) (q : Nat) :
    netFun (m + 1) q = bmap m m (netFun m q) := by
  rw [netFun_odd m _ (Or.inr hm)]
  rcases Nat.lt_or_ge m 2 with hm1 | hm2
  · have : m = 1 := by omega
    subst this
    rw [bmap_eval_one, netFun_odd 2 q (Or.inl (by omega))]
    have hn1 := netOdd_spec 1 q
    have hn2 := netOdd_spec 2 q
    have hb := bmapOne_spec 1 (netOdd 1 q)
    generalize hA : netOdd 1 q = a at hn1 hb
    generalize hB : bmapOne 1 a = b at hb
    generalize hC : netOdd 2 q = c at hn2
    omega
  · have hm3 : 3 ≤ m := by omega
    rw [bmap_eval_last m _ hm2,
      netFun_even (m + 1) q (by omega)]
    have hn1 := netOdd_spec m q
    have hn2 := netEven_spec (m + 1) q
    have hb := bmapLast_spec m (netOdd m q)
    generalize hA : netOdd m q = a at hn1 hb
    generalize hB : bmapLast m a = b at hb
    generalize hC : netEven (m + 1) q = c at hn2
    omega

/-- One block of level `m + 1` for even `m`, as a source map: a full
`heapFrag m` run (source map `netFun m`) followed by the swap of
positions `0` and `m`. -/
def evenStep (m q : Nat) : Nat := netFun m (swapFun 0 m q)

/-- The orbit of position `m` under `evenStep m`: the `i`-th block-start
state of level `m + 1` (even `m`) holds the input element of position
`omegaFun m i` at position `m`. -/
def omegaFun (m i : Nat) : Nat :=
  if i = 0 then m
  else if i ≤ m - 3 then m - 2 - i
  else if i = m - 2 then m - 2
  else if i = m - 1 then m - 1
  else 0

/-- Position of the value `v` in the orbit `omegaFun m`. -/
def posFun (m v : Nat) : Nat :=
  if v = m then 0
  else if 1 ≤ v ∧ v ≤ m - 3 then m - 2 - v
  else if v = m - 2 ∧ 4 ≤ m then m - 2
  else if v = m - 1 then m - 1
  else m

theorem omegaFun_spec (m i : Nat) :
    (i = 0 ∧ omegaFun m i = m) ∨
    (i ≠ 0 ∧ i ≤ m - 3 ∧ omegaFun m i = m - 2 - i) ∨
    (i ≠ 0 ∧ ¬ i ≤ m - 3 ∧ i = m - 2 ∧ omegaFun m i = m - 2) ∨
    (i ≠ 0 ∧ ¬ i ≤ m - 3 ∧ i ≠ m - 2 ∧ i = m - 1 ∧ omegaFun m i = m - 1) ∨
    (i ≠ 0 ∧ ¬ i ≤ m - 3 ∧ i ≠ m - 2 ∧ i ≠ m - 1 ∧ omegaFun m i = 0) := by
  unfold omegaFun; split_ifs <;> omega

theorem posFun_spec (m v : Nat) :
    (v = m ∧ posFun m v = 0) ∨
    (v ≠ m ∧ (1 ≤ v ∧ v ≤ m - 3) ∧ posFun m v = m - 2 - v) ∨
    (v ≠ m ∧ ¬(1 ≤ v ∧ v ≤ m - 3) ∧ (v = m - 2 ∧ 4 ≤ m) ∧
      posFun m v = m - 2) ∨
    (v ≠ m ∧ ¬(1 ≤ v ∧ v ≤ m - 3) ∧ ¬(v = m - 2 ∧ 4 ≤ m) ∧ v = m - 1 ∧
      posFun m v = m - 1) ∨
    (v ≠ m ∧ ¬(1 ≤ v ∧ v ≤ m - 3) ∧ ¬(v = m - 2 ∧ 4 ≤ m) ∧ v ≠ m - 1 ∧
      posFun m v = m) := by
  unfold posFun; split_ifs <;> omega

theorem omegaFun_le (m i : Nat) : omegaFun m i ≤ m := by
  unfold omegaFun; split_ifs <;> omega

theorem omegaFun_inj (m i1 i2 : Nat) (h1 : i1 < i2) (h2 : i2 ≤ m) :
    omegaFun m i1 ≠ omegaFun m i2 := by
  have o1 := omegaFun_spec m i1
  have o2 := omegaFun_spec m i2
  generalize hA : omegaFun m i1 = a at o1
  generalize hB : omegaFun m i2 = b at o2
  omega

theorem omegaFun_zero (m : Nat) : omegaFun m 0 = m := by
  unfold omegaFun; rw [if_pos rfl]

/-- The orbit is closed under one block: `evenStep` advances the orbit
position by one. -/
theorem evenStep_omega_step (m : Nat) (hm : m % 2 = 0) (h2 : 2 ≤ m)
    (i : Nat) (hi : i < m) :
    evenStep m (omegaFun m i) = omegaFun m (i + 1) := by
  unfold evenStep
  have ho1 := omegaFun_spec m i
  have ho2 := omegaFun_spec m (i + 1)
  have hs := swapFun_spec 0 m (omegaFun m i)
  rcases Nat.lt_or_ge m 3 with hm2 | hm3
  · rw [netFun_odd m _ (Or.inl (by omega))]
    have hn := netOdd_spec m (swapFun 0 m (omegaFun m i))
    generalize hA : omegaFun m i = a at ho1 hs hn
    generalize hB : swapFun 0 m a = b at hs hn
    generalize hC : netOdd m b = c at hn
    generalize hD : omegaFun m (i + 1) = e at ho2
    omega
  · rw [netFun_even m _ (by omega)]
    have hn := netEven_spec m (swapFun 0 m (omegaFun m i))
    generalize hA : omegaFun m i = a at ho1 hs hn
    generalize hB : swapFun 0 m a = b at hs hn
    generalize hC : netEven m b = c at hn
    generalize hD : omegaFun m (i + 1) = e at ho2
    omega

/-- The orbit wraps around after `m + 1` blocks. -/
theorem evenStep_omega_wrap (m : Nat) (hm : m % 2 = 0) (h2 : 2 ≤ m) :
    evenStep m (omegaFun m m) = omegaFun m 0 := by
  unfold evenStep
  have ho1 := omegaFun_spec m m
  have hs := swapFun_spec 0 m (omegaFun m m)
  rcases Nat.lt_or_ge m 3 with hm2 | hm3
  · rw [netFun_odd m _ (Or.inl (by omega)), omegaFun_zero]
    have hn := netOdd_spec m (swapFun 0 m (omegaFun m m))
    generalize hA : omegaFun m m = a at ho1 hs hn
    generalize hB : swapFun 0 m a = b at hs hn
    generalize hC : netOdd m b = c at hn
    omega
  · rw [netFun_even m _ (by omega), omegaFun_zero]
    have hn := netEven_spec m (swapFun 0 m (omegaFun m m))
    generalize hA : omegaFun m m = a at ho1 hs hn
    generalize hB : swapFun 0 m a = b at hs hn
    generalize hC : netEven m b = c at hn
    omega

/-- Iterating blocks walks the orbit. -/
theorem evenStep_iterate (m : Nat) (hm : m % 2 = 0) (h2 : 2 ≤ m) :
    ∀ (k i : Nat), i ≤ m →
      (evenStep m)^[k] (omegaFun m i) = omegaFun m ((i + k) % (m + 1)) := by
  intro k
  induction k with
  | zero =>
    intro i hi
    rw [Function.iterate_zero_apply, Nat.add_zero,
      Nat.mod_eq_of_lt (by omega)]
  | succ k ih =>
    intro i hi
    rw [Function.iterate_succ_apply]
    rcases Nat.lt_or_ge i m with h | h
    · rw [evenStep_omega_step m hm h2 i h, ih (i + 1) (by omega),
        show i + 1 + k = i + (k + 1) from by ring]
    · have hi' : i = m := by omega
      rw [hi', evenStep_omega_wrap m hm h2, ih 0 (by omega), Nat.zero_add,
        show m + (k + 1) = k + (m + 1) from by ring, Nat.add_mod_right]

/-- Every value `≤ m` lies on the orbit. -/
theorem omegaFun_posFun (m v : Nat) (hm : m % 2 = 0) (h2 : 2 ≤ m)
    (hv : v ≤ m) : posFun m v ≤ m ∧ omegaFun m (posFun m v) = v := by
  have hp := posFun_spec m v
  have ho := omegaFun_spec m (posFun m v)
  generalize hA : posFun m v = p at hp ho
  generalize hB : omegaFun m p = b at ho
  omega

/-- `m + 1` blocks act as the identity on positions `0 .. m`. -/
theorem evenStep_iterate_id (m v : Nat) (hm : m % 2 = 0) (h2 : 2 ≤ m)
    (hv : v ≤ m) : (evenStep m)^[m + 1] v = v := by
  obtain ⟨hp, he⟩ := omegaFun_posFun m v hm h2 hv
  rw [← he, evenStep_iterate m hm h2 (m + 1) (posFun m v) hp,
    show posFun m v + (m + 1) = posFun m v + (m + 1) from rfl,
    Nat.add_mod_right, Nat.mod_eq_of_lt (by omega)]

theorem evenStep_gt (m q : Nat) (h : m < q) : evenStep m q = q := by
  unfold evenStep
  rw [swapFun_gt 0 m q m (by omega) (by omega) h, netFun_gt m q h]

theorem evenStep_iterate_gt (m q k : Nat) (h : m < q) :
    (evenStep m)^[k] q = q := by
  induction k with
  | zero => rfl
  | succ k ih => rw [Function.iterate_succ_apply, evenStep_gt m q h, ih]

/-- `netFun m 0` is one step into the orbit (even `m`). -/
theorem netFun_zero_even (m : Nat) (hm : m % 2 = 0) (h2 : 2 ≤ m) :
    netFun m 0 = omegaFun m 1 := by
  have ho := omegaFun_spec m 1
  rcases Nat.lt_or_ge m 3 with hm2 | hm3
  · rw [netFun_odd m _ (Or.inl (by omega))]
    have hn := netOdd_spec m 0
    generalize hA : netOdd m 0 = a at hn
    generalize hB : omegaFun m 1 = b at ho
    omega
  · rw [netFun_even m _ (by omega)]
    have hn := netEven_spec m 0
    generalize hA : netEven m 0 = a at hn
    generalize hB : omegaFun m 1 = b at ho
    omega

theorem netFun_self (m : Nat) (h1 : 1 ≤ m) : netFun m m = m := by
  rcases Nat.lt_or_ge m 3 with hm2 | hm3
  · rw [netFun_odd m _ (Or.inl (by omega))]
    have hn := netOdd_spec m m
    generalize hA : netOdd m m = a at hn
    omega
  · by_cases hp : m % 2 = 1
    · rw [netFun_odd m _ (Or.inr hp)]
      have hn := netOdd_spec m m
      generalize hA : netOdd m m = a at hn
      omega
    · rw [netFun_even m _ (by omega)]
      have hn := netEven_spec m m
      generalize hA : netEven m m = a at hn
      omega

/-- For `1 ≤ q ≤ m - 1`, running a whole `heapFrag m` equals running one
block (even `m`): the step swap does not touch position `q`. -/
theorem netFun_eq_evenStep_mid (m q : Nat) (h1 : 1 ≤ q) (h2 : q < m) :
    netFun m q = evenStep m q := by
  unfold evenStep
  rw [show swapFun 0 m q = q from by unfold swapFun; split_ifs <;> omega]

/-- After the last block of level `m + 1` (even `m`), the composed
source map is exactly the swap of `0` and `m`. -/
theorem evenStep_fin (m q : Nat) (hm : m % 2 = 0) (h2 : 2 ≤ m) :
    (evenStep m)^[m] (netFun m q) = swapFun 0 m q := by
  rcases Nat.lt_or_ge m q with hq | hq
  · rw [netFun_gt m q hq, evenStep_iterate_gt m q m hq,
      swapFun_gt 0 m q m (by omega) (by omega) hq]
  rcases Nat.eq_zero_or_pos q with rfl | hq1
  · rw [netFun_zero_even m hm h2,
      evenStep_iterate m hm h2 m 1 (by omega),
      show (1 + m) % (m + 1) = 0 from by
        rw [Nat.add_comm, Nat.mod_self], omegaFun_zero,
      show swapFun 0 m 0 = m from by unfold swapFun; split_ifs <;> omega]
  rcases eq_or_ne q m with rfl | hqm
  · rw [netFun_self q (by omega)]
    have hit := evenStep_iterate q hm h2 q 0 (by omega)
    rw [omegaFun_zero, Nat.zero_add, Nat.mod_eq_of_lt (by omega)] at hit
    rw [hit]
    have ho := omegaFun_spec q q
    have hs := swapFun_spec 0 q q
    generalize hA : omegaFun q q = a at ho
    generalize hB : swapFun 0 q q = b at hs
    omega
  · rw [netFun_eq_evenStep_mid m q hq1 (by omega),
      ← Function.iterate_succ_apply,
      evenStep_iterate_id m q hm h2 (by omega),
      show swapFun 0 m q = q from by unfold swapFun; split_ifs <;> omega]


theorem netFun_lt (m q n : Nat) (hq : q < n) (hm : m < n) :
    netFun m q < n := by
  rcases le_or_lt q m with h | h
  · have := netFun_le m q h
    omega
  · rw [netFun_gt m q h]
    exact hq

theorem swapFun_lt (i j q n : Nat) (hi : i < n) (hj : j < n) (hq : q < n) :
    swapFun i j q < n := by
  unfold swapFun; split_ifs <;> omega

/-- `netFun (m + 1)` for even `m`: level `m + 1` is odd, its net effect
is the swap of positions `0` and `m`. -/
theorem netFun_succ_even (m q : Nat) (hm : m % 2 = 0) (h2 : 2 ≤ m) :
    netFun (m + 1) q = swapFun 0 m q := by
  rw [netFun_odd (m + 1) q (Or.inr (by omega))]
  have hn := netOdd_spec (m + 1) q
  have hs := swapFun_spec 0 m q
  generalize hA : netOdd (m + 1) q = a at hn
  generalize hB : swapFun 0 m q = b at hs
  omega

theorem netFun_one (q : Nat) : netFun 1 q = q := by
  rw [netFun_odd 1 q (Or.inl (by omega))]
  have hn := netOdd_spec 1 q
  generalize hA : netOdd 1 q = a at hn
  omega

theorem netFun_zero_fun (q : Nat) : netFun 0 q = q := by
  rw [netFun_odd 0 q (Or.inl (by omega))]
  have hn := netOdd_spec 0 q
  generalize hA : netOdd 0 q = a at hn
  omega

/-- Unified inner induction for the net effect of one level: starting
from the `j`-th block-start state (characterized by the source map
`S j`), the rest of level `m + 1` ends in the state characterized by
`S m ∘ netFun m`. -/
theorem heapFragAux_net (m : Nat) (S : Nat → Nat → Nat)
    (hIH : ∀ (b : List α) (d : α), m ≤ b.length → ∀ q, q < b.length →
      (heapFrag m b).2.getD q d = b.getD (netFun m q) d)
    (hstep : ∀ j, j < m → ∀ q,
      S (j + 1) q
        = S j (netFun m (swapFun (if m % 2 = 0 then 0 else j) m q))) :
    ∀ rem j, j + rem = m → ∀ (b data : List α) (d : α),
      b.length = data.length → m < data.length →
      (∀ q, q < data.length → b.getD q d = data.getD (S j q) d) →
      ∀ q, q < data.length →
        (heapFragAux (heapFrag m) m j rem b).2.getD q d
          = data.getD (S m (netFun m q)) d := by
  intro rem
  induction rem with
  | zero =>
    intro j hjm b data d hblen hmn hchar q hq
    have hjm' : j = m := by omega
    rw [hjm'] at hchar
    show (heapFrag m b).2.getD q d = _
    rw [hIH b d (by omega) q (by omega)]
    exact hchar (netFun m q) (netFun_lt m q data.length hq (by omega))
  | succ rem ihr =>
    intro j hjm b data d hblen hmn hchar q hq
    have hp2len : (heapFrag m b).2.length = b.length :=
      heapFrag_length_snd m b
    have hd2char : ∀ q, q < data.length →
        (if m % 2 = 0 then swapList (heapFrag m b).2 0 m
         else swapList (heapFrag m b).2 j m).getD q d
          = data.getD (S (j + 1) q) d := by
      intro q hq
      have hidx : (if m % 2 = 0 then 0 else j) < m + 1 := by
        split <;> omega
      have heq1 :
          (if m % 2 = 0 then swapList (heapFrag m b).2 0 m
           else swapList (heapFrag m b).2 j m).getD q d
            = (heapFrag m b).2.getD
                (swapFun (if m % 2 = 0 then 0 else j) m q) d := by
        split
        · next hpar =>
          rw [getD_swapList_src _ 0 m (by omega) (by omega) q d]
        · next hpar =>
          rw [getD_swapList_src _ j m (by omega) (by omega) q d]
      rw [heq1, hIH b d (by omega) _
          (swapFun_lt _ m q b.length (by omega) (by omega) (by omega)),
        hchar _ (netFun_lt m _ data.length
          (swapFun_lt _ m q data.length (by omega) (by omega) hq)
          (by omega)),
        ← hstep j (by omega) q]
    have hd2len :
        (if m % 2 = 0 then swapList (heapFrag m b).2 0 m
         else swapList (heapFrag m b).2 j m).length = data.length := by
      split <;> simp [hp2len, hblen]
    show (heapFragAux (heapFrag m) m (j + 1) rem _).2.getD q d = _
    exact ihr (j + 1) (by omega) _ data d hd2len hmn hd2char q hq

/-- The net effect of `heapFrag m`: position `q` of the final working
copy holds the input element of position `netFun m q`. -/
theorem heapFrag_netFun :
    ∀ (m : Nat) (data : List α) (d : α), m ≤ data.length →
      ∀ q, q < data.length →
        (heapFrag m data).2.getD q d = data.getD (netFun m q) d := by
  intro m
  induction m with
  | zero =>
    intro data d _ q hq
    rw [netFun_zero_fun q]
    rfl
  | succ m ih =>
    intro data d hlen q hq
    rcases Nat.eq_zero_or_pos m with rfl | hm1
    · rw [netFun_one q]
      rfl
    by_cases hpar : m % 2 = 0
    · -- even m ≥ 2
      have h2 : 2 ≤ m := by omega
      have hmain := heapFragAux_net m (fun j q => (evenStep m)^[j] q) ih
        (by
          intro j hj q
          rw [if_pos hpar]
          exact Function.iterate_succ_apply (evenStep m) j q)
        m 0 (by omega) data data d rfl (by omega)
        (fun q hq => rfl) q hq
      show (heapFragAux (heapFrag m) m 0 m data).2.getD q d = _
      rw [hmain]
      have hfin : (evenStep m)^[m] (netFun m q) = netFun (m + 1) q := by
        rw [evenStep_fin m q hpar h2, netFun_succ_even m q hpar h2]
      exact congrArg (fun i => data.getD i d) hfin
    · -- odd m
      have hodd : m % 2 = 1 := by omega
      have hmain := heapFragAux_net m (bmap m) ih
        (by
          intro j hj q
          rw [if_neg hpar]
          exact bmap_step m j hodd hj q)
        m 0 (by omega) data data d rfl (by omega)
        (fun q hq => by rw [bmap_eval_zero]) q hq
      show (heapFragAux (heapFrag m) m 0 m data).2.getD q d = _
      rw [hmain, ← bmap_fin m hodd q]


/-! ### Distinctness of the visited orderings -/

theorem getD_eq_of_drop_eq (l b : List α) (m : Nat)
    (h : l.drop m = b.drop m) (d : α) : l.getD m d = b.getD m d := by
  have h1 := List.getElem?_drop l m 0
  have h2 := List.getElem?_drop b m 0
  rw [Nat.add_zero] at h1 h2
  rw [List.getD_eq_getElem?_getD, List.getD_eq_getElem?_getD,
    ← h1, ← h2, h]

theorem getD_ne_of_nodup_take (data : List α) (m a c : Nat) (d : α)
    (hnd : (data.take (m + 1)).Nodup) (ha : a ≤ m) (hc : c ≤ m)
    (hne : a ≠ c) (hm : m < data.length) :
    data.getD a d ≠ data.getD c d := by
  have hlen : (data.take (m + 1)).length = m + 1 := by
    rw [List.length_take]
    omega
  have ha' : a < (data.take (m + 1)).length := by omega
  have hc' : c < (data.take (m + 1)).length := by omega
  have hga : data.getD a d = (data.take (m + 1)).get ⟨a, ha'⟩ := by
    rw [List.get_eq_getElem, List.getElem_take,
      List.getD_eq_getElem?_getD, List.getElem?_eq_getElem (by omega)]
    rfl
  have hgc : data.getD c d = (data.take (m + 1)).get ⟨c, hc'⟩ := by
    rw [List.get_eq_getElem, List.getElem_take,
      List.getD_eq_getElem?_getD, List.getElem?_eq_getElem (by omega)]
    rfl
  rw [hga, hgc]
  simp only [List.get_eq_getElem]
  intro hcontra
  exact hne (hnd.getElem_inj_iff.mp hcontra)

/-- The block orbit for even `m`, at position `m`. -/
theorem evenStep_orbit (m j : Nat) (hm : m % 2 = 0) (h2 : 2 ≤ m)
    (hj : j ≤ m) : (evenStep m)^[j] m = omegaFun m j := by
  have h0 := evenStep_iterate m hm h2 j 0 (by omega)
  rw [omegaFun_zero, Nat.zero_add, Nat.mod_eq_of_lt (by omega)] at h0
  exact h0

/-- Unified inner induction for distinctness: the orderings emitted from
the `j`-th block-start state on are pairwise distinct, and each one
holds, at position `m`, the input element of position `S j2 m` for the
block `j2 ≥ j` it belongs to. -/
theorem heapFragAux_nodup (m : Nat) (S : Nat → Nat → Nat)
    (hIHnodup : ∀ b : List α, m ≤ b.length → (b.take m).Nodup →
      (b :: (heapFrag m b).1).Nodup)
    (hstep : ∀ j, j < m → ∀ q,
      S (j + 1) q
        = S j (netFun m (swapFun (if m % 2 = 0 then 0 else j) m q)))
    (hSle : ∀ j, j ≤ m → S j m ≤ m)
    (hSinj : ∀ j1 j2, j1 < j2 → j2 ≤ m → S j1 m ≠ S j2 m) :
    ∀ rem j, j + rem = m → ∀ (b data : List α) (d : α),
      b.length = data.length → m < data.length →
      (∀ q, q < data.length → b.getD q d = data.getD (S j q) d) →
      (b.take (m + 1)).Nodup → (data.take (m + 1)).Nodup →
      (b :: (heapFragAux (heapFrag m) m j rem b).1).Nodup ∧
      (∀ l ∈ b :: (heapFragAux (heapFrag m) m j rem b).1,
        ∃ j2, j ≤ j2 ∧ j2 ≤ m ∧ l.getD m d = data.getD (S j2 m) d) := by
  intro rem
  induction rem with
  | zero =>
    intro j hjm b data d hblen hmn hchar hbnd hdnd
    have hjm' : j = m := by omega
    have hbm : m ≤ b.length := by omega
    have hbtake : (b.take m).Nodup := by
      have heq : b.take m = (b.take (m + 1)).take m := by
        rw [List.take_take, Nat.min_eq_left (by omega)]
      rw [heq]
      exact (List.take_sublist m (b.take (m + 1))).nodup hbnd
    constructor
    · exact hIHnodup b hbm hbtake
    · intro l hl
      refine ⟨j, le_refl j, by omega, ?_⟩
      have hfr : l.drop m = b.drop m := by
        rcases List.mem_cons.1 hl with rfl | hl2
        · rfl
        · exact ((heapFrag_fragRel m b hbm).1 l hl2).2.2
      rw [getD_eq_of_drop_eq l b m hfr d]
      exact hchar m (by omega)
  | succ rem ihr =>
    intro j hjm b data d hblen hmn hchar hbnd hdnd
    have hbm : m ≤ b.length := by omega
    have hp2len : (heapFrag m b).2.length = b.length :=
      heapFrag_length_snd m b
    -- the next block-start state
    have hd2rel : FragRel (m + 1) b
        (if m % 2 = 0 then swapList (heapFrag m b).2 0 m
         else swapList (heapFrag m b).2 j m) := by
      have hfin1 : FragRel (m + 1) b (heapFrag m b).2 :=
        FragRel.mono_succ m b _ (heapFrag_fragRel m b hbm).2
      refine FragRel.trans _ _ _ _ hfin1 ?_
      split
      · exact swapList_confined _ 0 m (m + 1) (by omega) (by omega)
          (by omega)
      · exact swapList_confined _ j m (m + 1) (by omega) (by omega)
          (by omega)
    have hd2len :
        (if m % 2 = 0 then swapList (heapFrag m b).2 0 m
         else swapList (heapFrag m b).2 j m).length = data.length := by
      split <;> simp [hp2len, hblen]
    have hd2nd :
        ((if m % 2 = 0 then swapList (heapFrag m b).2 0 m
          else swapList (heapFrag m b).2 j m).take (m + 1)).Nodup :=
      (hd2rel.2.1.nodup_iff).mpr hbnd
    have hd2char : ∀ q, q < data.length →
        (if m % 2 = 0 then swapList (heapFrag m b).2 0 m
         else swapList (heapFrag m b).2 j m).getD q d
          = data.getD (S (j + 1) q) d := by
      intro q hq
      have hidx : (if m % 2 = 0 then 0 else j) < m + 1 := by
        split <;> omega
      have heq1 :
          (if m % 2 = 0 then swapList (heapFrag m b).2 0 m
           else swapList (heapFrag m b).2 j m).getD q d
            = (heapFrag m b).2.getD
                (swapFun (if m % 2 = 0 then 0 else j) m q) d := by
        split
        · next hpar =>
          rw [getD_swapList_src _ 0 m (by omega) (by omega) q d]
        · next hpar =>
          rw [getD_swapList_src _ j m (by omega) (by omega) q d]
      rw [heq1, heapFrag_netFun m b d (by omega) _
          (swapFun_lt _ m q b.length (by omega) (by omega) (by omega)),
        hchar _ (netFun_lt m _ data.length
          (swapFun_lt _ m q data.length (by omega) (by omega) hq)
          (by omega)),
        ← hstep j (by omega) q]
    obtain ⟨hrnd, hrpos⟩ := ihr (j + 1) (by omega) _ data d hd2len hmn
      hd2char hd2nd hdnd
    -- the left block
    have hbtake : (b.take m).Nodup := by
      have heq : b.take m = (b.take (m + 1)).take m := by
        rw [List.take_take, Nat.min_eq_left (by omega)]
      rw [heq]
      exact (List.take_sublist m (b.take (m + 1))).nodup hbnd
    have hlnd : (b :: (heapFrag m b).1).Nodup := hIHnodup b hbm hbtake
    have hlpos : ∀ l ∈ b :: (heapFrag m b).1,
        l.getD m d = data.getD (S j m) d := by
      intro l hl
      have hfr : l.drop m = b.drop m := by
        rcases List.mem_cons.1 hl with rfl | hl2
        · rfl
        · exact ((heapFrag_fragRel m b hbm).1 l hl2).2.2
      rw [getD_eq_of_drop_eq l b m hfr d]
      exact hchar m (by omega)
    have hsplit : b :: (heapFragAux (heapFrag m) m j (rem + 1) b).1
        = (b :: (heapFrag m b).1) ++
          ((if m % 2 = 0 then swapList (heapFrag m b).2 0 m
            else swapList (heapFrag m b).2 j m) ::
            (heapFragAux (heapFrag m) m (j + 1) rem
              (if m % 2 = 0 then swapList (heapFrag m b).2 0 m
               else swapList (heapFrag m b).2 j m)).1) := by
      simp [heapFragAux]
    constructor
    · rw [hsplit]
      refine List.Nodup.append hlnd hrnd ?_
      intro l hl1 hl2
      obtain ⟨j2, hj2a, hj2b, hj2c⟩ := hrpos l hl2
      have h1 := hlpos l hl1
      rw [h1] at hj2c
      exact getD_ne_of_nodup_take data m (S j m) (S j2 m) d hdnd
        (hSle j (by omega)) (hSle j2 hj2b)
        (hSinj j j2 (by omega) hj2b) (by omega) hj2c
    · intro l hl
      rw [hsplit] at hl
      rcases List.mem_append.1 hl with hl1 | hl2
      · exact ⟨j, le_refl j, by omega, hlpos l hl1⟩
      · obtain ⟨j2, hj2a, hj2b, hj2c⟩ := hrpos l hl2
        exact ⟨j2, by omega, hj2b, hj2c⟩


/-- Master distinctness theorem: the initial ordering together with all
orderings emitted by `heapFrag m` are pairwise distinct whenever the
first `m` input elements are. -/
theorem heapFrag_nodup :
    ∀ (m : Nat) (data : List α), m ≤ data.length → (data.take m).Nodup →
      (data :: (heapFrag m data).1).Nodup := by
  intro m
  induction m with
  | zero =>
    intro data _ _
    show (data :: ([] : List (List α))).Nodup
    simp
  | succ m ih =>
    intro data hlen hnd
    have hne : data ≠ [] := by
      intro h
      rw [h] at hlen
      simp at hlen
    have d : α := data.head hne
    rcases Nat.eq_zero_or_pos m with rfl | hm1
    · show (data :: ([] : List (List α))).Nodup
      simp
    by_cases hpar : m % 2 = 0
    · have h2 : 2 ≤ m := by omega
      have hmain := heapFragAux_nodup m (fun j q => (evenStep m)^[j] q)
        ih
        (by
          intro j hj q
          rw [if_pos hpar]
          exact Function.iterate_succ_apply (evenStep m) j q)
        (by
          intro j hj
          show (evenStep m)^[j] m ≤ m
          rw [evenStep_orbit m j hpar h2 hj]
          exact omegaFun_le m j)
        (by
          intro j1 j2 hj1 hj2
          show (evenStep m)^[j1] m ≠ (evenStep m)^[j2] m
          rw [evenStep_orbit m j1 hpar h2 (by omega),
            evenStep_orbit m j2 hpar h2 hj2]
          exact omegaFun_inj m j1 j2 hj1 hj2)
        m 0 (by omega) data data d rfl (by omega)
        (fun q hq => rfl) hnd hnd
      exact hmain.1
    · have hodd : m % 2 = 1 := by omega
      have hmain := heapFragAux_nodup m (bmap m)
        ih
        (by
          intro j hj q
          rw [if_neg hpar]
          exact bmap_step m j hodd hj q)
        (fun j hj => bmap_last_le m j hodd hj)
        (fun j1 j2 hj1 hj2 => bmap_last_inj m j1 j2 hodd hj1 hj2)
        m 0 (by omega) data data d rfl (by omega)
        (fun q hq => by rw [bmap_eval_zero]) hnd hnd
      exact hmain.1

/-! ### `permute`: counting, distinctness, completeness -/

theorem permute_length (data : List α) :
    (permute data).length = Nat.factorial data.length := by
  rw [permute_eq_heapFrag]
  simpa using heapFrag_length_fst data.length data

/-- Distinctness: on pairwise-distinct input the visited orderings
never repeat. -/
theorem permute_nodup (data : List α) (h : data.Nodup) :
    (permute data).Nodup := by
  rw [permute_eq_heapFrag]
  exact heapFrag_nodup data.length data le_rfl
    (by rwa [List.take_length])

theorem heapFragAux_map (f : α → β) (m : Nat)
    (fm : List α → List (List α) × List α)
    (fm2 : List β → List (List β) × List β)
    (hcomm : ∀ l : List α,
      fm2 (l.map f) = ((fm l).1.map (List.map f), (fm l).2.map f)) :
    ∀ rem j (l : List α),
      heapFragAux fm2 m j rem (l.map f)
        = ((heapFragAux fm m j rem l).1.map (List.map f),
           (heapFragAux fm m j rem l).2.map f) := by
  intro rem
  induction rem with
  | zero => intro j l; exact hcomm l
  | succ rem ih =>
    intro j l
    show (let p := fm2 (l.map f)
          let d2 := if m % 2 = 0 then swapList p.2 0 m
                    else swapList p.2 j m
          let q := heapFragAux fm2 m (j + 1) rem d2
          (p.1 ++ d2 :: q.1, q.2)) = _
    rw [hcomm l]
    have hd2 : (if m % 2 = 0 then swapList ((fm l).2.map f) 0 m
        else swapList ((fm l).2.map f) j m)
          = (if m % 2 = 0 then swapList (fm l).2 0 m
             else swapList (fm l).2 j m).map f := by
      split <;> rw [map_swapList]
    show ((fm l).1.map (List.map f) ++ _ :: _, _) = _
    rw [hd2, ih (j + 1)]
    show (_, _) = ((heapFragAux fm m j (rem + 1) l).1.map (List.map f),
      (heapFragAux fm m j (rem + 1) l).2.map f)
    simp only [heapFragAux, List.map_append, List.map_cons]

theorem heapFrag_map (f : α → β) :
    ∀ (m : Nat) (l : List α),
      heapFrag m (l.map f)
        = ((heapFrag m l).1.map (List.map f), (heapFrag m l).2.map f) := by
  intro m
  induction m with
  | zero => intro l; rfl
  | succ m ih =>
    intro l
    exact heapFragAux_map f m (heapFrag m) (heapFrag m) ih m 0 l

/-- `permute` is natural: the loop's swaps depend only on positions,
never on the values. -/
theorem permute_map (f : α → β) (l : List α) :
    permute (l.map f) = (permute l).map (List.map f) := by
  rw [permute_eq_heapFrag, permute_eq_heapFrag, List.length_map,
    heapFrag_map f l.length l]
  rfl

theorem range_map_getD (data : List α) (d : α) :
    (List.range data.length).map (fun i => data.getD i d) = data := by
  apply List.ext_getElem
  · simp
  · intro i h1 h2
    simp only [List.getElem_map, List.getElem_range,
      List.getD_eq_getElem?_getD, List.getElem?_eq_getElem h2]
    rfl

/-- The central completeness theorem: the orderings `permute` passes to its
callback are, up to reordering, exactly the `n!` entries of
`List.permutations` — all of them, each exactly once. -/
theorem permute_perm_permutations (data : List α) :
    (permute data).Perm data.permutations := by
  rcases data with _ | ⟨a, rest⟩
  · have h1 : permute ([] : List α) = [[]] := rfl
    have h2 : ([] : List α).permutations = [[]] := by
      simp [List.permutations]
    rw [h1, h2]
  · set data := a :: rest with hdata
    have hrange : (permute (List.range data.length)).Perm
        (List.range data.length).permutations := by
      have hnd : (List.range data.length).Nodup := List.nodup_range _
      have h1 : (permute (List.range data.length)).Nodup :=
        permute_nodup _ hnd
      have h2 : permute (List.range data.length)
          ⊆ (List.range data.length).permutations := fun l hl =>
        List.mem_permutations.2 (permute_mem_perm _ l hl)
      have h3 := List.subperm_of_subset h1 h2
      refine h3.perm_of_length_le ?_
      rw [List.length_permutations, permute_length, List.length_range]
    have hmap := range_map_getD data a
    have e1 : permute data
        = (permute (List.range data.length)).map
            (List.map fun i => data.getD i a) := by
      conv_lhs => rw [← hmap]
      exact permute_map _ _
    have e2 : ((List.range data.length).permutations).map
        (List.map fun i => data.getD i a) = data.permutations := by
      rw [List.map_permutations, hmap]
    rw [e1, ← e2]
    exact hrange.map _


/-! ### The validator -/

/-- The validator succeeds exactly when no field's type is in the seen
set and the field types are pairwise distinct. -/
theorem collectDupErrors_eq_nil_iff :
    ∀ (fields : List Field) (seen : List String),
      collectDupErrors seen fields = []
        ↔ ((fields.map Field.ty).Nodup ∧ ∀ f ∈ fields, f.ty ∉ seen) := by
  intro fields
  induction fields with
  | nil => intro seen; simp [collectDupErrors]
  | cons f rest ih =>
    intro seen
    by_cases hf : f.ty ∈ seen
    · simp only [collectDupErrors, if_pos hf]
      constructor
      · intro h; exact absurd h (by simp)
      · rintro ⟨-, hall⟩
        exact absurd hf (hall f (by simp))
    · rw [collectDupErrors, if_neg hf, ih (f.ty :: seen)]
      constructor
      · rintro ⟨hnd, hall⟩
        have hnotmap : f.ty ∉ rest.map Field.ty := by
          intro hmem
          obtain ⟨g, hg, hgty⟩ := List.mem_map.1 hmem
          exact (hall g hg) (by rw [hgty]; exact List.mem_cons_self _ _)
        refine ⟨?_, ?_⟩
        · rw [List.map_cons, List.nodup_cons]
          exact ⟨hnotmap, hnd⟩
        · intro g hg
          rcases List.mem_cons.1 hg with heq | hg2
          · rw [heq]; exact hf
          · intro hsc
            exact (hall g hg2) (List.mem_cons_of_mem _ hsc)
      · rintro ⟨hnd, hall⟩
        rw [List.map_cons, List.nodup_cons] at hnd
        refine ⟨hnd.2, ?_⟩
        intro g hg hsc
        rcases List.mem_cons.1 hsc with heq | hmem
        · refine hnd.1 ?_
          rw [← heq]
          exact List.mem_map.2 ⟨g, hg, rfl⟩
        · exact (hall g (List.mem_cons_of_mem _ hg)) hmem

/-- `Ok` iff all field types are pairwise distinct. -/
theorem verify_ok_iff_nodup (fields : List Field) :
    verify_unique_field_types fields = Except.ok ()
      ↔ (fields.map Field.ty).Nodup := by
  unfold verify_unique_field_types
  constructor
  · intro h
    rcases hc : collectDupErrors [] fields with _ | ⟨e, es⟩
    · exact ((collectDupErrors_eq_nil_iff fields []).1 hc).1
    · rw [hc] at h
      exact absurd h (by simp)
  · intro h
    have hc : collectDupErrors [] fields = [] :=
      (collectDupErrors_eq_nil_iff fields []).2 ⟨h, by simp⟩
    rw [hc]

/-- Spec-side rendering of the duplicate list: scanning in declaration
order with `prev` holding the types of all earlier fields, every field
whose type already occurred earlier is reported (the later occurrence),
and scanning continues. -/
def duplicateFieldsSpec : List String → List Field → List Field
  | _, [] => []
  | prev, f :: rest =>
    if f.ty ∈ prev then f :: duplicateFieldsSpec (prev ++ [f.ty]) rest
    else duplicateFieldsSpec (prev ++ [f.ty]) rest

/-- Refinement: the validator's collected errors are exactly one error
per later-duplicate field, in field order, each spanned by that field
and carrying the duplicate-type message. -/
theorem collectDupErrors_eq_spec :
    ∀ (fields : List Field) (seen prev : List String),
      (∀ t, t ∈ seen ↔ t ∈ prev) →
      collectDupErrors seen fields
        = (duplicateFieldsSpec prev fields).map
            fun f => (ErrSpan.onField f, dupTypeMsg) := by
  intro fields
  induction fields with
  | nil => intro seen prev _; rfl
  | cons f rest ih =>
    intro seen prev hequiv
    by_cases hf : f.ty ∈ seen
    · rw [collectDupErrors, if_pos hf, duplicateFieldsSpec,
        if_pos ((hequiv f.ty).1 hf), List.map_cons,
        ih seen (prev ++ [f.ty]) (by
          intro t
          rw [hequiv t, List.mem_append]
          constructor
          · exact Or.inl
          · rintro (h | h)
            · exact h
            · simp only [List.mem_singleton] at h
              rw [h, ← hequiv f.ty] at *
              exact hf)]
    · rw [collectDupErrors, if_neg hf, duplicateFieldsSpec,
        if_neg (fun h => hf ((hequiv f.ty).2 h)),
        ih (f.ty :: seen) (prev ++ [f.ty]) (by
          intro t
          simp only [List.mem_cons, List.mem_append, List.mem_singleton,
            hequiv t]
          tauto)]

/-! ### The synthesizer semantics -/

/-- In the positional environment `let (d0, .., d(n-1)) = tuple`, the
variable with index `s + i` is bound to the value at offset `i` of the
value list that starts at variable index `s`. -/
theorem lookup_zip_range' (vals : List V) :
    ∀ (s i : Nat) (h : i < vals.length),
      ((List.range' s vals.length).zip vals).lookup (s + i)
        = some (vals.get ⟨i, h⟩) := by
  induction vals with
  | nil => intro s i h; simp at h
  | cons v vs ih =>
    intro s i h
    match i with
    | 0 =>
      show List.lookup (s + 0) ((List.range' s (vs.length + 1)).zip (v :: vs))
        = some v
      rw [List.range'_succ, List.zip_cons_cons, Nat.add_zero, List.lookup_cons]
      simp
    | j + 1 =>
      have hj : j < vs.length := by
        simpa using h
      show List.lookup (s + (j + 1))
          ((List.range' s (vs.length + 1)).zip (v :: vs))
        = some (vs.get ⟨j, hj⟩)
      rw [List.range'_succ, List.zip_cons_cons, List.lookup_cons]
      have hne : (s + (j + 1) == s) = false := by
        simp only [beq_eq_false_iff_ne, ne_eq]
        omega
      rw [hne]
      have heq := ih (s + 1) j hj
      rw [show s + (j + 1) = s + 1 + j from by omega]
      rw [heq]

/-- Evaluating assignments whose variable indices start at `s` under an
environment that binds each variable `s + i` to `tvals[i]` produces
exactly the positional pairing of the names with the values. -/
theorem mapM_lookup_zip :
    ∀ (names : List String) (tvals : List V) (s : Nat) (env : List (Nat × V)),
      names.length = tvals.length →
      (∀ i (hi : i < tvals.length),
        env.lookup (s + i) = some (tvals.get ⟨i, hi⟩)) →
      (names.zip (List.range' s names.length)).mapM
          (fun a => (env.lookup a.2).map fun v => (a.1, v))
        = some (names.zip tvals) := by
  intro names
  induction names with
  | nil => intro tvals s env _ _; rfl
  | cons nm ns ih =>
    intro tvals s env hlen hlook
    match tvals with
    | [] => simp at hlen
    | v :: vs =>
      show ((nm :: ns).zip (List.range' s (ns.length + 1))).mapM
          (fun a => (env.lookup a.2).map fun w => (a.1, w))
        = some ((nm, v) :: ns.zip vs)
      rw [List.range'_succ, List.zip_cons_cons, List.mapM_cons]
      have h0 : env.lookup s = some v := by
        have := hlook 0 (by simp)
        simpa using this
      rw [ih vs (s + 1) env (by simpa using hlen) ?_]
      · rw [h0]
        rfl
      · intro i hi
        have := hlook (i + 1) (by simpa using hi)
        rw [show s + (i + 1) = s + 1 + i from by omega] at this
        exact this

/-- Semantics of one generated `impl`: applying the generated `from`
function of the ordering `fields` to a tuple of matching arity builds
the record that pairs each field name with the tuple value at that
field's position. -/
theorem runConvImpl_impl_from_tuple (fields : List Field)
    (data : DeriveInput) (vals : List V)
    (h : vals.length = fields.length) :
    runConvImpl (impl_from_tuple fields data) vals
      = some ((fields.map Field.name).zip vals) := by
  show ((fields.map Field.name).zip (List.range fields.length)).mapM
      (fun a =>
        (((List.range fields.length).zip vals).lookup a.2).map
          fun v => (a.1, v))
    = some ((fields.map Field.name).zip vals)
  rw [show fields.length = (fields.map Field.name).length from
    (List.length_map fields Field.name).symm, List.range_eq_range']
  apply mapM_lookup_zip
  · rw [List.length_map, h]
  · intro i hi
    have hr : List.range' 0 (fields.map Field.name).length
        = List.range' 0 vals.length := by
      rw [List.length_map, h]
    rw [hr]
    exact lookup_zip_range' vals 0 i hi


/-! ### The spec side of type identity -/

/-- Modelled from the spec: resolution of a textual type alias to the
underlying type ("the identity must be based on the field's full
resolved type, not a textual alias").  The spec's own example is two
alias names of the same underlying numeric type; `std::os::raw::c_uchar`
is a textual alias of `u8`. -/
def resolveAlias (t : String) : String :=
  if t = "std::os::raw::c_uchar" then "u8" else t

/-! ### The claims -/

/-- C1: for every input field sequence of length `N ≥ 0`, `permute`
invokes its callback exactly `N!` times, and the ordering passed on the
first invocation is the original, unmodified input order. -/
theorem claim_C1 (data : List α) :
    (permute data).length = Nat.factorial data.length
    ∧ (permute data).head? = some data :=
  ⟨permute_length data, rfl⟩

/-- C2: for a pairwise-distinct input sequence of length `N ≥ 2`, the
orderings `permute` passes to its callback are pairwise distinct,
an ordering is passed iff it is a permutation of the input (none
omitted, none foreign), and exactly `N!` are passed. -/
theorem claim_C2 (data : List α) (_h2 : 2 ≤ data.length)
    (hnd : data.Nodup) :
    (permute data).Nodup
    ∧ (∀ l, l ∈ permute data ↔ l.Perm data)
    ∧ (permute data).length = Nat.factorial data.length := by
  refine ⟨permute_nodup data hnd, ?_, permute_length data⟩
  intro l
  constructor
  · exact permute_mem_perm data l
  · intro hp
    exact ((permute_perm_permutations data).mem_iff).2
      (List.mem_permutations.2 hp)

theorem claim_C2_witness :
    (permute [0, 1]).Nodup
    ∧ (∀ l, l ∈ permute [0, 1] ↔ l.Perm [0, 1])
    ∧ (permute [0, 1]).length = Nat.factorial 2 :=
  claim_C2 [0, 1] (by decide) (by decide)

/-- C3: `verify_unique_field_types` returns `Ok` iff all field types
are pairwise distinct; otherwise it returns the error holding exactly
one entry per field whose type already occurred earlier (the later
occurrence is reported, tagged with that field's span); in particular
on types `[A, B, A]` it reports exactly the third field. -/
theorem claim_C3 (fields : List Field) :
    (verify_unique_field_types fields = Except.ok ()
      ↔ (fields.map Field.ty).Nodup)
    ∧ (verify_unique_field_types fields = Except.ok ()
      ∨ verify_unique_field_types fields
          = Except.error ((duplicateFieldsSpec [] fields).map
              fun f => (ErrSpan.onField f, dupTypeMsg)))
    ∧ verify_unique_field_types
        [⟨"first", "A"⟩, ⟨"second", "B"⟩, ⟨"third", "A"⟩]
      = Except.error [(ErrSpan.onField ⟨"third", "A"⟩, dupTypeMsg)] := by
  refine ⟨verify_ok_iff_nodup fields, ?_, rfl⟩
  unfold verify_unique_field_types
  rw [collectDupErrors_eq_spec fields [] [] (fun t => Iff.rfl)]
  cases duplicateFieldsSpec [] fields with
  | nil => exact Or.inl rfl
  | cons f rest => exact Or.inr rfl

/-- C4 (corrected): the type identity `verify_unique_field_types` uses
is the syntactic form of the field's type (`syn::Type` equality of the
parsed spelling), not the resolved type: identically spelled types are
duplicates, while two different alias spellings of one underlying type
(such as `std::os::raw::c_uchar` and `u8`) pass the validator. -/
theorem claim_C4 (fields : List Field) :
    (verify_unique_field_types fields = Except.ok ()
      ↔ (fields.map Field.ty).Nodup)
    ∧ verify_unique_field_types
        [⟨"a", "std::os::raw::c_uchar"⟩, ⟨"b", "u8"⟩] = Except.ok ()
    ∧ verify_unique_field_types [⟨"a", "u8"⟩, ⟨"b", "u8"⟩]
        ≠ Except.ok () := by
  refine ⟨verify_ok_iff_nodup fields, rfl, ?_⟩
  intro h
  have hnd := (verify_ok_iff_nodup [⟨"a", "u8"⟩, ⟨"b", "u8"⟩]).1 h
  simp at hnd

/-- C4, the counterexample to the claim as stated: two fields whose
spellings are distinct aliases of the same resolved type are accepted
by `verify_unique_field_types`, so its identity is not the resolved
type. -/
theorem claim_C4_counterexample :
    resolveAlias "std::os::raw::c_uchar" = resolveAlias "u8"
    ∧ verify_unique_field_types
        [⟨"a", "std::os::raw::c_uchar"⟩, ⟨"b", "u8"⟩] = Except.ok () :=
  ⟨rfl, rfl⟩

/-- C5: for any field ordering, `impl_from_tuple` emits the tuple type
listing each field's type in that ordering and assigns to each field
the positional variable of its index; running the generated `from` on
a tuple of matching arity is a pure positional rename, pairing each
field name with the tuple value at its position unchanged. -/
theorem claim_C5 (fields : List Field) (data : DeriveInput)
    (vals : List V) (h : vals.length = fields.length) :
    (impl_from_tuple fields data).tupleTypes = fields.map Field.ty
    ∧ (impl_from_tuple fields data).fieldAssigns
        = (fields.map Field.name).zip (List.range fields.length)
    ∧ runConvImpl (impl_from_tuple fields data) vals
        = some ((fields.map Field.name).zip vals) :=
  ⟨rfl, rfl, runConvImpl_impl_from_tuple fields data vals h⟩

theorem claim_C5_witness :
    (impl_from_tuple [⟨"x", "T1"⟩, ⟨"y", "T2"⟩]
        ⟨"S", DeriveData.structData []⟩).tupleTypes = ["T1", "T2"]
    ∧ (impl_from_tuple [⟨"x", "T1"⟩, ⟨"y", "T2"⟩]
        ⟨"S", DeriveData.structData []⟩).fieldAssigns
        = [("x", 0), ("y", 1)]
    ∧ runConvImpl (impl_from_tuple [⟨"x", "T1"⟩, ⟨"y", "T2"⟩]
        ⟨"S", DeriveData.structData []⟩) ([10, 20] : List Nat)
        = some [("x", 10), ("y", 20)] :=
  claim_C5 [⟨"x", "T1"⟩, ⟨"y", "T2"⟩] ⟨"S", DeriveData.structData []⟩
    ([10, 20] : List Nat) rfl

/-- C6: on a struct input whose validation fails, the derive's output
is exactly the compile error the validator produced: no permutation is
enumerated and no conversion impl appears in the output. -/
theorem claim_C6 (input : DeriveInput) (fields : List Field)
    (e : SynError) (hdata : input.data = DeriveData.structData fields)
    (herr : verify_unique_field_types fields = Except.error e) :
    from_strictly_heterogeneous_tuple input = TokenOutput.compileError e := by
  obtain ⟨ident, data⟩ := input
  simp only at hdata
  subst hdata
  show (match verify_unique_field_types fields with
    | Except.error e => TokenOutput.compileError e
    | Except.ok () =>
      TokenOutput.code ((permute fields).map fun fs =>
        impl_from_tuple fs ⟨ident, DeriveData.structData fields⟩)) = _
  rw [herr]

theorem claim_C6_witness :
    from_strictly_heterogeneous_tuple
        ⟨"S", DeriveData.structData [⟨"a", "A"⟩, ⟨"b", "A"⟩]⟩
      = TokenOutput.compileError [(ErrSpan.onField ⟨"b", "A"⟩, dupTypeMsg)] :=
  claim_C6 ⟨"S", DeriveData.structData [⟨"a", "A"⟩, ⟨"b", "A"⟩]⟩
    [⟨"a", "A"⟩, ⟨"b", "A"⟩] [(ErrSpan.onField ⟨"b", "A"⟩, dupTypeMsg)]
    rfl rfl

/-- C7: nothing in the pass changes a field's name or type: every
ordering the engine passes to the callback is a rearrangement of the
very same field values (the first being the untouched input), and the
synthesizer only reads the ordering, emitting its types and names by
projection. -/
theorem claim_C7 (fields : List Field) (data : DeriveInput) :
    (∀ l ∈ permute fields, l.Perm fields)
    ∧ (permute fields).head? = some fields
    ∧ (∀ l : List Field,
        (impl_from_tuple l data).tupleTypes = l.map Field.ty
        ∧ (impl_from_tuple l data).fieldAssigns
            = (l.map Field.name).zip (List.range l.length)) :=
  ⟨permute_mem_perm fields, rfl, fun _ => ⟨rfl, rfl⟩⟩

/-- C8: the pass is deterministic: two runs on equal record
descriptors (equal identifier, equal data) produce equal outputs —
equal error or deep-equal list of conversion impls in the same
order. -/
theorem claim_C8 (i1 i2 : DeriveInput) (h1 : i1.ident = i2.ident)
    (h2 : i1.data = i2.data) :
    from_strictly_heterogeneous_tuple i1
      = from_strictly_heterogeneous_tuple i2 := by
  obtain ⟨a, b⟩ := i1
  obtain ⟨c, d⟩ := i2
  simp only at h1 h2
  subst h1
  subst h2
  rfl

theorem claim_C8_witness :
    from_strictly_heterogeneous_tuple
        ⟨"S", DeriveData.structData [⟨"x", "A"⟩]⟩
      = from_strictly_heterogeneous_tuple
          ⟨"S", DeriveData.structData [⟨"x", "A"⟩]⟩ :=
  claim_C8 ⟨"S", DeriveData.structData [⟨"x", "A"⟩]⟩
    ⟨"S", DeriveData.structData [⟨"x", "A"⟩]⟩ rfl rfl

/-- C9: the loop of `permute` terminates on every finite input: with
fuel `permuteFuel N` the run has driven `idx` to `N` (and any extra
fuel `k` leaves the run there), after exactly `N!` callback
invocations counting the pre-loop one. -/
theorem claim_C9 (data : List α) (k : Nat) :
    (permuteLoop (permuteFuel data.length + k) data
        (List.replicate data.length 0) 0).idx = data.length
    ∧ (permute data).length = Nat.factorial data.length :=
  ⟨(permuteLoop_halts data k).1, permute_length data⟩

/-- C10: on any input that is not a struct, the derive returns the
compile error saying only structs are supported, and emits no
conversion impl. -/
theorem claim_C10 (input : DeriveInput)
    (h : ∀ fields, input.data ≠ DeriveData.structData fields) :
    from_strictly_heterogeneous_tuple input
      = TokenOutput.compileError
          [(ErrSpan.onInput input,
            "FromStrictlyHeterogeneousTuple currently only supports Struct")] := by
  obtain ⟨ident, data⟩ := input
  cases data with
  | structData fs => exact absurd rfl (h fs)
  | enumData => rfl
  | unionData => rfl

theorem claim_C10_witness :
    from_strictly_heterogeneous_tuple ⟨"E", DeriveData.enumData⟩
      = TokenOutput.compileError
          [(ErrSpan.onInput ⟨"E", DeriveData.enumData⟩,
            "FromStrictlyHeterogeneousTuple currently only supports Struct")] :=
  claim_C10 ⟨"E", DeriveData.enumData⟩
    (fun _ h => DeriveData.noConfusion h)

end FromTuple
